import Mathlib

/-!
Shallow embedding of the bento blockchain indexer (Rust) and proofs about it.

The embedding models:
* `serde_json::Value` as `Bento.Json` (JSON numbers are carried as exact
  rationals: every JSON numeral denotes a decimal, hence a rational);
* `bigdecimal::BigDecimal` values as `Rat` (big decimals are exactly the
  rationals whose denominator is a power of ten; all arithmetic performed by
  the program — addition, negation — is exact in `Rat`);
* database tables as Lean lists of row structures, and the diesel queries of
  `repository.rs` as list functions (filters, sorts, finds);
* Rust panics (`unwrap` on `None`) as `Option.none` propagation.
-/

namespace Bento

/-- `serde_json::Value`. Numbers are modelled as exact rationals (the decimal
numeral the program sees); objects as association lists with the first binding
of a key the visible one, mirroring lookup in the parsed map. -/
inductive Json where
  | null
  | bool (b : Bool)
  | num (q : Rat)
  | str (s : String)
  | arr (items : List Json)
  | obj (fields : List (String × Json))

/-- `Value::is_number`. -/
def Json.is_number : Json → Bool
  | .num _ => true
  | _ => false

/-- `Value::is_object`. -/
def Json.is_object : Json → Bool
  | .obj _ => true
  | _ => false

/-- `Value::as_str`: `Some` exactly on JSON strings. -/
def Json.as_str : Json → Option String
  | .str s => some s
  | _ => none

/-- `Map::get` on a JSON object (lookup by key); `none` when the value is not
an object or the key is absent. -/
def Json.get (key : String) : Json → Option Json
  | .obj fields => (fields.find? (fun f => f.1 = key)).map (·.2)
  | _ => none

/-- `Value::as_i64`: `Some` exactly on integer-valued JSON numbers. -/
def Json.as_i64 : Json → Option Int
  | .num q => if q.den = 1 then some q.num else none
  | _ => none

/-- The numeric value of a JSON number, if it is one. -/
def Json.as_num : Json → Option Rat
  | .num q => some q
  | _ => none

/-- Indexing `value[i]` on a `serde_json::Value`: the `Index` impl returns
`Value::Null` when the value is not an array or the index is out of bounds. -/
def Json.index (v : Json) (i : Nat) : Json :=
  match v with
  | .arr items => (items.get? i).getD .null
  | _ => .null

/-- Digits of a numeral string: `some n` when the character list is nonempty
and all characters are decimal digits. -/
def parseDigits : List Char → Option Nat
  | [] => none
  | cs =>
    if cs.all (fun c => c.isDigit) then
      some (cs.foldl (fun acc c => acc * 10 + (c.toNat - 48)) 0)
    else none

/-- Optional sign prefix: returns the sign and the remaining characters. -/
def splitSign : List Char → Int × List Char
  | '+' :: rest => (1, rest)
  | '-' :: rest => (-1, rest)
  | cs => (1, cs)

/-- The mantissa `digits[.digits]` of a decimal numeral: its integer numerator
and its scale (number of fractional digits). At most one dot; at least one
digit overall. -/
def parseMantissa (cs : List Char) : Option (Nat × Nat) :=
  match cs.splitOn '.' with
  | [whole] => (parseDigits whole).map (fun n => (n, 0))
  | [whole, frac] =>
    if whole.isEmpty ∧ frac.isEmpty then none
    else if (whole ++ frac).all (fun c => c.isDigit) then
      some ((whole ++ frac).foldl (fun acc c => acc * 10 + (c.toNat - 48)) 0, frac.length)
    else none
  | _ => none

/-- The exact rational `sign · n · 10^e`. -/
def decimalValue (sign : Int) (n : Nat) (e : Int) : Rat :=
  if 0 ≤ e then Rat.divInt (sign * (n * 10 ^ e.toNat : Nat)) 1
  else Rat.divInt (sign * (n : Int)) ((10 : Nat) ^ (-e).toNat : Nat)

/-- `BigDecimal::from_str`: `[+-]? digits [. digits]? ([eE] [+-]? digits)?`
(either side of the dot may be empty, not both), evaluated exactly as a
rational. `none` models a parse error. -/
def bigDecimalFromStr (s : String) : Option Rat :=
  let (sign, cs) := splitSign s.toList
  let (mantissa, expPart) :=
    match cs.splitOn 'e' with
    | [m, e] => (m, some e)
    | _ =>
      match cs.splitOn 'E' with
      | [m, e] => (m, some e)
      | _ => (cs, none)
  match parseMantissa mantissa with
  | none => none
  | some (n, scale) =>
    match expPart with
    | none => some (decimalValue sign n (-(scale : Int)))
    | some e =>
      let (esign, ecs) := splitSign e
      match parseDigits ecs with
      | none => none
      | some ev =>
        some (decimalValue sign n (esign * (ev : Int) - (scale : Int)))

/-- Amount resolution of `make_transfer` in `transfers.rs` applied to
`event.params[2]`. A JSON number is converted through
`BigDecimal::from_str(&v.to_string()).unwrap()`, which reproduces its exact
value; an object is looked up under `"decimal"` (string expected, parse
failures default to 0) and otherwise under `"int"` (`as_i64().unwrap()`);
`none` models the panics of the four `unwrap()` calls on that path. -/
def make_transfer_amount (p2 : Json) : Option Rat :=
  match p2.is_number with
  | true => p2.as_num
  | false =>
    match p2.is_object with
    | true =>
      match p2.get "decimal" with
      | some number =>
        (number.as_str).map (fun s => (bigDecimalFromStr s).getD 0)
      | none =>
        (p2.get "int").bind (fun v => (v.as_i64).map (fun n => (n : Rat)))
    | false => some 0

/-- Amount resolution of `parse_transfer_event` in `balance.rs` applied to
`event.params[2]`: same number branch, but an object is *always* read through
`.get("decimal").unwrap().as_str().unwrap()` — there is no `"int"` branch —
so `none` (panic) results from any object without a string under
`"decimal"`. -/
def parse_transfer_event_amount (p2 : Json) : Option Rat :=
  match p2.is_number with
  | true => p2.as_num
  | false =>
    match p2.is_object with
    | true =>
      ((p2.get "decimal").bind Json.as_str).map (fun s => (bigDecimalFromStr s).getD 0)
    | false => some 0

/-- The amount rule exactly as the specification states it (total, never a
panic): number → its decimal value; object with a string under `"decimal"` →
parse it, 0 on failure; object with an integer under `"int"` → that integer;
anything else → 0. -/
def specAmountRule (p2 : Json) : Rat :=
  match p2.is_number with
  | true => (p2.as_num).getD 0
  | false =>
    match p2.is_object with
    | true =>
      match (p2.get "decimal").bind Json.as_str with
      | some s => (bigDecimalFromStr s).getD 0
      | none =>
        match (p2.get "int").bind Json.as_i64 with
        | some n => (n : Rat)
        | none => 0
    | false => 0

/-! ### Data model (`models.rs`, `chainweb_client.rs`)

Timestamps (`NaiveDateTime`) are modelled as microseconds since the epoch
(`Int`); `BigDecimal` columns as `Rat`. Field defaults only ease writing
concrete witnesses; they play no semantic role. -/

/-- `models::Event`. -/
structure Event where
  block : String := ""
  chain_id : Int := 0
  height : Int := 0
  idx : Int := 0
  module : String := ""
  module_hash : String := ""
  name : String := ""
  params : Json := .null
  param_text : String := ""
  qual_name : String := ""
  request_key : String := ""
  pact_id : Option String := none

/-- `models::Block`. -/
structure Block where
  chain_id : Int := 0
  creation_time : Int := 0
  epoch : Int := 0
  flags : Rat := 0
  hash : String := ""
  height : Int := 0
  miner : String := ""
  nonce : Rat := 0
  parent : String := ""
  payload : String := ""
  pow_hash : String := ""
  predicate : String := ""
  target : Rat := 1
  weight : Rat := 0
deriving DecidableEq

/-- `models::Balance`. -/
structure Balance where
  account : String := ""
  amount : Rat := 0
  chain_id : Int := 0
  height : Int := 0
  qual_name : String := ""
  module : String := ""
deriving DecidableEq

/-- `models::Transfer`. -/
structure Transfer where
  amount : Rat := 0
  block : String := ""
  chain_id : Int := 0
  from_account : String := ""
  height : Int := 0
  idx : Int := 0
  module_hash : String := ""
  module_name : String := ""
  pact_id : Option String := none
  request_key : String := ""
  to_account : String := ""
  creation_time : Int := 0
deriving DecidableEq

/-- `models::Transaction` (only its `block` reference matters to the claims;
JSON-valued columns are carried as `Json`, `gas_price` — an `f64` — as an
exact rational). -/
structure Transaction where
  bad_result : Option Json := none
  block : String := ""
  chain_id : Int := 0
  code : Option String := none
  continuation : Option Json := none
  creation_time : Int := 0
  data : Option Json := none
  gas : Int := 0
  gas_limit : Int := 0
  gas_price : Rat := 0
  good_result : Option Json := none
  height : Int := 0
  logs : Option String := none
  metadata : Option Json := none
  nonce : String := ""
  num_events : Option Int := none
  pact_id : Option String := none
  proof : Option String := none
  request_key : String := ""
  rollback : Option Bool := none
  sender : String := ""
  step : Option Int := none
  ttl : Int := 0
  tx_id : Option Int := none

/-- `chainweb_client::Bounds`. -/
structure Bounds where
  lower : List String := []
  upper : List String := []
deriving DecidableEq

/-- `chainweb_client::BlockHash` — one entry of the cut's `hashes` map. -/
structure BlockHash where
  height : Int := 0
  hash : String := ""
deriving DecidableEq

/-- `chainweb_client::BlockHeader` (the fields `index_chain` reads). -/
structure BlockHeader where
  height : Int := 0
  hash : String := ""
  payload_hash : String := ""
deriving DecidableEq

/-! ### Sorting order used by the range queries -/

/-- `ORDER BY height ASC` on events. -/
def eventHeightLe (a b : Event) : Prop := a.height ≤ b.height

instance : DecidableRel eventHeightLe :=
  fun a b => inferInstanceAs (Decidable (a.height ≤ b.height))

instance : IsTotal Event eventHeightLe := ⟨fun a b => le_total a.height b.height⟩

instance : IsTrans Event eventHeightLe := ⟨fun _ _ _ h1 h2 => le_trans h1 h2⟩

/-- `ORDER BY height DESC` on blocks. -/
def blockHeightGe (a b : Block) : Prop := b.height ≤ a.height

instance : DecidableRel blockHeightGe :=
  fun a b => inferInstanceAs (Decidable (b.height ≤ a.height))

instance : IsTotal Block blockHeightGe := ⟨fun a b => le_total b.height a.height⟩

instance : IsTrans Block blockHeightGe := ⟨fun _ _ _ h1 h2 => le_trans h2 h1⟩

/-- `ORDER BY height ASC` on blocks. -/
def blockHeightLe (a b : Block) : Prop := a.height ≤ b.height

instance : DecidableRel blockHeightLe :=
  fun a b => inferInstanceAs (Decidable (a.height ≤ b.height))

instance : IsTotal Block blockHeightLe := ⟨fun a b => le_total a.height b.height⟩

instance : IsTrans Block blockHeightLe := ⟨fun _ _ _ h1 h2 => le_trans h1 h2⟩

/-! ### `repository.rs` — queries as list functions

A table is the list of its rows. A SQL `ORDER BY` fixes the result only up to
the order of equal keys; the functions below realise each query with a sort
that is one legitimate outcome, and `events_range_result_ok` states exactly
the contract the SQL guarantees. -/

/-- `EventsRepository::find_by_range`: events of the chain with
`min_height ≤ height ≤ max_height`, `ORDER BY height ASC` (no further sort
key in the query). -/
def events_find_by_range (events : List Event) (min_height max_height chain_id : Int) :
    List Event :=
  List.insertionSort eventHeightLe
    (events.filter (fun e =>
      decide (e.chain_id = chain_id) && decide (min_height ≤ e.height) &&
        decide (e.height ≤ max_height)))

/-- Everything the SQL of `EventsRepository::find_by_range` promises about a
result list: it is some permutation of the matching rows that is sorted by
`height` ascending. -/
def events_range_result_ok (events : List Event) (min_height max_height chain_id : Int)
    (result : List Event) : Prop :=
  List.Perm result
      (events.filter (fun e =>
        decide (e.chain_id = chain_id) && decide (min_height ≤ e.height) &&
          decide (e.height ≤ max_height))) ∧
    List.Sorted eventHeightLe result

/-- `EventsRepository::find_max_height`: `max(height)` over the chain's
events, `0` when there are none (`unwrap_or(0)`). -/
def events_find_max_height (events : List Event) (chain_id : Int) : Int :=
  (((events.filter (fun e => decide (e.chain_id = chain_id))).map (·.height)).max?).getD 0

/-- `BlocksRepository::find_by_range`: blocks of the chain with
`min_height ≤ height ≤ max_height`, `ORDER BY height DESC`. -/
def blocks_find_by_range (blocks : List Block) (min_height max_height chain_id : Int) :
    List Block :=
  List.insertionSort blockHeightGe
    (blocks.filter (fun b =>
      decide (min_height ≤ b.height) && decide (b.height ≤ max_height) &&
        decide (b.chain_id = chain_id)))

/-- `BlocksRepository::find_by_height`: first block row with this height on
this chain. -/
def blocks_find_by_height (blocks : List Block) (height chain_id : Int) : Option Block :=
  blocks.find? (fun b => decide (b.height = height) && decide (b.chain_id = chain_id))

/-- `BlocksRepository::find_min_max_height_blocks`: the first row ordered by
height ascending and the first ordered by height descending. -/
def blocks_find_min_max_height_blocks (blocks : List Block) (chain_id : Int) :
    Option Block × Option Block :=
  let q := blocks.filter (fun b => decide (b.chain_id = chain_id))
  ((List.insertionSort blockHeightLe q).head?, (List.insertionSort blockHeightGe q).head?)

/-- `BlocksRepository::count`: number of block rows of the chain. -/
def blocks_count (blocks : List Block) (chain_id : Int) : Int :=
  ((blocks.filter (fun b => decide (b.chain_id = chain_id))).length : Int)

/-- `BalancesRepository::find_by_account_chain_and_module`: first row matching
account, chain and module. -/
def balances_find_by_account_chain_and_module (balances : List Balance)
    (account : String) (chain_id : Int) (module : String) : Option Balance :=
  balances.find? (fun b =>
    decide (b.account = account) && decide (b.chain_id = chain_id) &&
      decide (b.module = module))

/-- `BalancesRepository::update`: `UPDATE balances SET amount = …` filtered by
account, chain and `qual_name` — the statement writes *only* the `amount`
column (the `height` carried by the argument row is not part of the
`set`). -/
def balances_update (balances : List Balance) (balance : Balance) : List Balance :=
  balances.map (fun b =>
    if b.account = balance.account ∧ b.chain_id = balance.chain_id ∧
        b.qual_name = balance.qual_name
    then { b with amount := balance.amount }
    else b)

/-- `BalancesRepository::insert`: plain `INSERT` (appends the row). -/
def balances_insert (balances : List Balance) (balance : Balance) : List Balance :=
  balances ++ [balance]

/-! ### `balance.rs` — the balance derivation -/

/-- `is_balance_transfer` (identical in `balance.rs` and `transfers.rs`). -/
def is_balance_transfer (event : Event) : Bool := decide (event.name = "TRANSFER")

/-- `parse_transfer_event` in `balance.rs`: sender and receiver are
`params[0]/params[1].as_str().unwrap()` (panic — `none` — on non-strings),
demoted to `None` when empty; the amount follows
`parse_transfer_event_amount`. -/
def parse_transfer_event (event : Event) :
    Option (Option String × Option String × Rat) :=
  match (event.params.index 0).as_str with
  | none => none
  | some sender =>
    match (event.params.index 1).as_str with
    | none => none
    | some receiver =>
      (parse_transfer_event_amount (event.params.index 2)).map (fun amount =>
        ((if sender = "" then none else some sender),
         (if receiver = "" then none else some receiver), amount))

/-- `update_account_balance` in `balance.rs` on the balances table: find by
(account, chain, module); on a hit write back the row with the summed amount
and the event height (the repository persists only the amount, see
`balances_update`); on a miss insert a fresh row. -/
def update_account_balance (account : String) (chain_id : Int)
    (qual_name module : String) (height : Int) (change : Rat)
    (balances : List Balance) : List Balance :=
  match balances_find_by_account_chain_and_module balances account chain_id module with
  | some balance =>
    balances_update balances
      { balance with amount := balance.amount + change, height := height }
  | none =>
    balances_insert balances
      { account := account, amount := change, chain_id := chain_id,
        height := height, qual_name := qual_name, module := module }

/-- `update_balances` in `balance.rs`: fold the event list in order; each
TRANSFER event is parsed (a parse panic aborts — `none`) and applies
`-amount` to its sender and `+amount` to its receiver. -/
def update_balances (events : List Event) (balances : List Balance) :
    Option (List Balance) :=
  match events with
  | [] => some balances
  | event :: rest =>
    if is_balance_transfer event then
      match parse_transfer_event event with
      | none => none
      | some (sender, receiver, amount) =>
        let b1 :=
          match sender with
          | some s =>
            update_account_balance s event.chain_id event.qual_name event.module
              event.height (amount * (-1)) balances
          | none => balances
        let b2 :=
          match receiver with
          | some r =>
            update_account_balance r event.chain_id event.qual_name event.module
              event.height amount b1
          | none => b1
        update_balances rest b2
    else update_balances rest balances

/-- The batching loop of `calculate_balances`: starting from `min_height`,
load `[min_height, min_height + batch_size]`, skip ahead by `batch_size` on an
empty batch, otherwise apply `update_balances` and advance by
`batch_size + 1`; stop once `min_height > max_height`. The loop advances only
for positive `batch_size`, hence the proof argument. -/
def calculate_balances_loop (events : List Event) (chain_id batch_size : Int)
    (hbs : 0 < batch_size) (max_height : Int) (balances : List Balance)
    (min_height : Int) : Option (List Balance) :=
  if _h : min_height > max_height then some balances
  else
    let evs := events_find_by_range events min_height (min_height + batch_size) chain_id
    if evs.isEmpty then
      calculate_balances_loop events chain_id batch_size hbs max_height balances
        (min_height + batch_size)
    else
      match update_balances evs balances with
      | none => none
      | some balances1 =>
        calculate_balances_loop events chain_id batch_size hbs max_height balances1
          (min_height + batch_size + 1)
termination_by (max_height + 1 - min_height).toNat
decreasing_by
  · omega
  · omega

/-- `calculate_balances` in `balance.rs`: full replay of the chain's events
from `starting_height` (default 0) up to the maximal persisted event
height. -/
def calculate_balances (chain_id batch_size : Int) (hbs : 0 < batch_size)
    (starting_height : Option Int) (events : List Event)
    (balances : List Balance) : Option (List Balance) :=
  calculate_balances_loop events chain_id batch_size hbs
    (events_find_max_height events chain_id) balances (starting_height.getD 0)

/-! ### `transfers.rs` — the transfer derivation -/

/-- The `HashMap<String, &Block>` built by `process_transfers` keyed by block
hash: on duplicate hashes the later block wins, so lookup finds the last
occurrence. -/
def blocks_by_hash_get (blocks : List Block) (hash : String) : Option Block :=
  blocks.reverse.find? (fun b => decide (b.hash = hash))

/-- `make_transfer` in `transfers.rs`: sender/receiver via
`as_str().unwrap()`, amount via `make_transfer_amount`; `creation_time` is the
block's, truncated to milliseconds by the
`timestamp_millis`/`from_timestamp_millis` round trip. `none` models the
unwrap panics. -/
def make_transfer (event : Event) (block : Block) : Option Transfer :=
  match (event.params.index 0).as_str with
  | none => none
  | some sender =>
    match (event.params.index 1).as_str with
    | none => none
    | some receiver =>
      (make_transfer_amount (event.params.index 2)).map (fun amount =>
        { amount := amount, block := event.block, chain_id := event.chain_id,
          creation_time := 1000 * (block.creation_time.fdiv 1000),
          from_account := sender, height := event.height, idx := event.idx,
          module_hash := event.module_hash, module_name := event.module,
          request_key := event.request_key, to_account := receiver,
          pact_id := event.pact_id })

/-- Primary key of the `transfers` table:
`(block, chain_id, idx, module_hash, request_key)`. -/
def transferSamePK (a b : Transfer) : Bool :=
  decide (a.block = b.block) && decide (a.chain_id = b.chain_id) &&
    decide (a.idx = b.idx) && decide (a.module_hash = b.module_hash) &&
    decide (a.request_key = b.request_key)

/-- `TransfersRepository::insert_batch` (`ON CONFLICT DO NOTHING`): append
each row whose primary key is not yet present, skip the rest. -/
def transfers_insert_batch (table : List Transfer) (rows : List Transfer) :
    List Transfer :=
  rows.foldl (fun t x => if t.any (transferSamePK x) then t else t ++ [x]) table

/-- `process_transfers` in `transfers.rs`: keep TRANSFER events, build a
`Transfer` per event with its block looked up by hash (a missing block or a
parse panic is `none`), insert the batch skip-if-exists. -/
def process_transfers (events : List Event) (blocks : List Block)
    (table : List Transfer) : Option (List Transfer) :=
  ((events.filter is_balance_transfer).mapM (fun e =>
      (blocks_by_hash_get blocks e.block).bind (fun b => make_transfer e b))).map
    (fun transfers => transfers_insert_batch table transfers)

/-- The batching loop of `backfill_chain` in `transfers.rs`, walking from
`max_height` down to `min_height = 0`. Its result also carries the list of
`(low, high)` ranges passed to `EventsRepository::find_by_range`, recording
which loads happened. -/
def backfill_chain_loop (events : List Event) (blocks : List Block)
    (chain_id batch_size : Int) (hbs : 0 < batch_size)
    (table : List Transfer) (ranges : List (Int × Int)) (max_height : Int) :
    Option (List Transfer × List (Int × Int)) :=
  if _h : max_height ≤ 0 then some (table, ranges)
  else
    let evs := events_find_by_range events (max_height - batch_size) max_height chain_id
    let ranges1 := ranges ++ [(max_height - batch_size, max_height)]
    if evs.isEmpty then
      backfill_chain_loop events blocks chain_id batch_size hbs table ranges1
        (max_height - batch_size)
    else
      match process_transfers evs blocks table with
      | none => none
      | some table1 =>
        backfill_chain_loop events blocks chain_id batch_size hbs table1 ranges1
          (max_height - batch_size)
termination_by max_height.toNat
decreasing_by
  · omega
  · omega

/-- `backfill_chain` in `transfers.rs`: `min_height = 0`; `max_height` is the
argument or, by default, the chain's maximal persisted event height. -/
def backfill_chain (chain_id batch_size : Int) (hbs : 0 < batch_size)
    (events : List Event) (blocks : List Block) (table : List Transfer)
    (starting_max_height : Option Int) :
    Option (List Transfer × List (Int × Int)) :=
  backfill_chain_loop events blocks chain_id batch_size hbs table []
    (match starting_max_height with
     | some value => value
     | none => events_find_max_height events chain_id)

/-! ### `indexer.rs` — cut scheduler, traversal loop, stream consumer -/

/-- `Indexer::get_all_bounds`: one or two traversal jobs per cut entry, from
the chain's persisted min/max blocks. -/
def get_all_bounds (blocks : List Block) (cut_hashes : List (Nat × BlockHash)) :
    List (Nat × Bounds) :=
  cut_hashes.flatMap (fun entry =>
    let chain := entry.1
    let last_block_hash := entry.2
    match blocks_find_min_max_height_blocks blocks (chain : Int) with
    | (some min_block, some max_block) =>
      (chain, Bounds.mk [max_block.hash] [last_block_hash.hash]) ::
        (if min_block.height > 0 then [(chain, Bounds.mk [] [min_block.hash])] else [])
    | (none, none) => [(chain, Bounds.mk [] [last_block_hash.hash])]
    | _ => [])

/-- One iteration of the `loop` in `Indexer::index_chain`, given the
header-branch response `items` for the current bounds. Returns the bounds for
the next iteration — `none` when the loop returns `Ok` — and the headers
passed to `process_headers` this iteration (`[]` when it returns first).
An empty response returns; otherwise the upper bound becomes the last
header's hash and the loop returns when that leaves the bounds unchanged. -/
def index_chain_step (bounds : Bounds) (items : List BlockHeader) :
    Option Bounds × List BlockHeader :=
  match items.getLast? with
  | none => (none, [])
  | some last =>
    if ({ bounds with upper := [last.hash] } : Bounds) = bounds then (none, [])
    else (some { bounds with upper := [last.hash] }, items)

/-- `Indexer::index_chain`'s iteration acting on an abstract store `σ`:
whatever `process_headers` does to the store happens exactly when
`index_chain_step` continues, and with exactly the response's headers. -/
def index_chain_iterate {σ : Type} (process : List BlockHeader → σ → σ)
    (store : σ) (bounds : Bounds) (items : List BlockHeader) :
    Option Bounds × σ :=
  match index_chain_step bounds items with
  | (none, _) => (none, store)
  | (some next_bounds, headers) => (some next_bounds, process headers store)

/-- The store the live-stream consumer writes to. -/
structure Store where
  blocks : List Block := []
  transactions : List Transaction := []
  events : List Event := []

/-- The database operations `save_block` performs, in order. -/
inductive DbOp where
  | deleteEventsByBlock (hash : String)
  | deleteTxsByBlock (hash : String)
  | deleteBlock (height chain_id : Int)
  | insertBlock (hash : String)
deriving DecidableEq

/-- `BlocksRepository::insert`. Modelled from the spec: the migrations (not
part of `src/`) put the unique key the stream consumer relies on at
`(chain_id, height)` — "UniqueViolation — expected at the Block table when a
re-org produces a duplicate (chain, height)" — so the insert fails exactly
when a block row with the same chain and height exists. -/
def blocks_insert (blocks : List Block) (block : Block) : Option (List Block) :=
  if blocks.any (fun b => decide (b.chain_id = block.chain_id) && decide (b.height = block.height))
  then none
  else some (blocks ++ [block])

/-- `EventsRepository::delete_all_by_block`. -/
def events_delete_all_by_block (events : List Event) (hash : String) : List Event :=
  events.filter (fun e => !decide (e.block = hash))

/-- `TransactionsRepository::delete_all_by_block`. -/
def transactions_delete_all_by_block (transactions : List Transaction) (hash : String) :
    List Transaction :=
  transactions.filter (fun t => !decide (t.block = hash))

/-- `BlocksRepository::delete_one`: delete by height and chain. -/
def blocks_delete_one (blocks : List Block) (height chain_id : Int) : List Block :=
  blocks.filter (fun b => !(decide (b.height = height) && decide (b.chain_id = chain_id)))

/-- `Indexer::save_block`: try the insert; on a unique violation find the
existing (orphaned) block at the same height and chain, delete its events,
then its transactions, then the block row, and insert the new block. The
returned trace lists the performed operations in program order; `none` models
the `unwrap` panics. -/
def save_block (store : Store) (block : Block) : Option (Store × List DbOp) :=
  match blocks_insert store.blocks block with
  | some blocks1 => some ({ store with blocks := blocks1 }, [DbOp.insertBlock block.hash])
  | none =>
    match blocks_find_by_height store.blocks block.height block.chain_id with
    | none => none
    | some orphan =>
      let events1 := events_delete_all_by_block store.events orphan.hash
      let transactions1 := transactions_delete_all_by_block store.transactions orphan.hash
      let blocks1 := blocks_delete_one store.blocks block.height block.chain_id
      match blocks_insert blocks1 block with
      | none => none
      | some blocks2 =>
        some ({ blocks := blocks2, transactions := transactions1, events := events1 },
          [DbOp.deleteEventsByBlock orphan.hash, DbOp.deleteTxsByBlock orphan.hash,
           DbOp.deleteBlock block.height block.chain_id, DbOp.insertBlock block.hash])

/-! ### `gaps.rs` — the gap finder -/

/-- The `for block in blocks.iter()` scan of `find_gaps_in_range`: walk the
descending batch, pushing `(block, previous_block)` whenever the heights jump
by more than 1, and return the accumulated gaps with the final
`previous_block`. -/
def gaps_scan (blocks : List (Block)) (previous_block : Block)
    (gaps : List (Block × Block)) : List (Block × Block) × Block :=
  match blocks with
  | [] => (gaps, previous_block)
  | block :: rest =>
    gaps_scan rest block
      (if previous_block.height - block.height > 1 then gaps ++ [(block, previous_block)]
       else gaps)

/-- The loop of `find_gaps_in_range` in `gaps.rs` (`batch_size = 100`):
query `[max_height - 100, max_height]` descending, seed `previous_block`
from the carried `last_block` (or the batch's last element on the first
nonempty batch), scan for jumps, and step `max_height` down by 100 until it
reaches `min_height`. -/
def find_gaps_in_range_loop (blocks : List Block) (min_height chain : Int)
    (gaps : List (Block × Block)) (last_block : Option Block) (max_height : Int) :
    List (Block × Block) :=
  if _h : max_height ≤ min_height then gaps
  else
    match blocks_find_by_range blocks (max_height - 100) max_height chain with
    | [] =>
      find_gaps_in_range_loop blocks min_height chain gaps last_block (max_height - 100)
    | b :: bs =>
      let previous_block :=
        match last_block with
        | none => (b :: bs).getLast (by simp)
        | some p => p
      let scanned := gaps_scan (b :: bs) previous_block gaps
      find_gaps_in_range_loop blocks min_height chain scanned.1 (some scanned.2)
        (max_height - 100)
termination_by (max_height - min_height).toNat
decreasing_by
  · omega
  · omega

/-- `find_gaps_in_range` in `gaps.rs`. -/
def find_gaps_in_range (min_height max_height chain : Int) (blocks : List Block) :
    List (Block × Block) :=
  find_gaps_in_range_loop blocks min_height chain [] none max_height

/-- `find_gaps` in `gaps.rs`: nothing to do on an empty chain; the quick
count-vs-span check short-circuits only for gap-free genesis-at-0 chains;
otherwise scan the `[min, max]` span. -/
def find_gaps (chain_id : Int) (blocks : List Block) : List (Block × Block) :=
  if blocks_count blocks chain_id = 0 then []
  else
    match blocks_find_min_max_height_blocks blocks chain_id with
    | (some min_block, some max_block) =>
      if (if min_block.height = 0 then max_block.height + 1 = blocks_count blocks chain_id
          else max_block.height - min_block.height + 1 = 0)
      then []
      else find_gaps_in_range min_block.height max_block.height chain_id blocks
    | _ => []

/-! ### Helper definitions used by the claim statements -/

/-- The inputs on which the spec's amount rule and both implementations can
agree: a JSON number, a non-object, or an object carrying a string under
`"decimal"`. -/
def amount_shared_case (p2 : Json) : Prop :=
  p2.is_number = true ∨ p2.is_object = false ∨
    ∃ s, (p2.get "decimal").bind Json.as_str = some s

/-- The amount the balance derivation attributes to an event
(`parse_transfer_event`'s third component; 0 keeps the junk default). -/
def transfer_amount_of (e : Event) : Rat :=
  (parse_transfer_event_amount (e.params.index 2)).getD 0

/-- Net contribution of one event to the balance key
`(account, chain, module)`: `+amount` when the event is a TRANSFER of this
chain and module whose `params[1]` is the account, `-amount` when its
`params[0]` is. -/
def event_contribution (account : String) (chain : Int) (module : String)
    (e : Event) : Rat :=
  (if is_balance_transfer e = true ∧ e.chain_id = chain ∧ e.module = module ∧
      (e.params.index 1).as_str = some account then transfer_amount_of e else 0)
  - (if is_balance_transfer e = true ∧ e.chain_id = chain ∧ e.module = module ∧
      (e.params.index 0).as_str = some account then transfer_amount_of e else 0)

/-- Lexicographic `(height asc, idx asc)` order on events. -/
def eventHeightIdxLe (a b : Event) : Prop :=
  a.height < b.height ∨ (a.height = b.height ∧ a.idx ≤ b.idx)

instance : DecidableRel eventHeightIdxLe := fun a b =>
  inferInstanceAs (Decidable (a.height < b.height ∨ (a.height = b.height ∧ a.idx ≤ b.idx)))

/-- One step of `update_balances` as a fold step, for stating that the events
of a batch are applied in list order. -/
def apply_transfer_event (acc : Option (List Balance)) (event : Event) :
    Option (List Balance) :=
  acc.bind (fun balances =>
    if is_balance_transfer event then
      match parse_transfer_event event with
      | none => none
      | some (sender, receiver, amount) =>
        let b1 :=
          match sender with
          | some s =>
            update_account_balance s event.chain_id event.qual_name event.module
              event.height (amount * (-1)) balances
          | none => balances
        let b2 :=
          match receiver with
          | some r =>
            update_account_balance r event.chain_id event.qual_name event.module
              event.height amount b1
          | none => b1
        some b2
    else some balances)

/-- The chain's min-height block as `find_min_max_height_blocks` selects it. -/
def chain_min_block (blocks : List Block) (chain_id : Int) : Option Block :=
  (blocks_find_min_max_height_blocks blocks chain_id).1

/-- The chain's max-height block as `find_min_max_height_blocks` selects it. -/
def chain_max_block (blocks : List Block) (chain_id : Int) : Option Block :=
  (blocks_find_min_max_height_blocks blocks chain_id).2

/-- The persisted blocks of the gap-detection scenario: chain 0 with exactly
the heights `{0, 1, 2, 4, 5, 9, 10}`. -/
def gapScenarioBlocks : List Block :=
  [ { chain_id := 0, hash := "hash-0", height := 0 },
    { chain_id := 0, hash := "hash-1", height := 1 },
    { chain_id := 0, hash := "hash-2", height := 2 },
    { chain_id := 0, hash := "hash-4", height := 4 },
    { chain_id := 0, hash := "hash-5", height := 5 },
    { chain_id := 0, hash := "hash-9", height := 9 },
    { chain_id := 0, hash := "hash-10", height := 10 } ]

/-- A TRANSFER event for concrete scenarios. -/
def sampleTransferEvent (h idx : Int) (params : Json) : Event :=
  { block := "blk", chain_id := 0, height := h, idx := idx, module := "coin",
    name := "TRANSFER", params := params, qual_name := "coin.TRANSFER",
    request_key := "rk" }

/-- The event stream of the balance-derivation scenario (the repository's own
`test_calculate_balances` data): mint 100.1 to alice, then three transfers
alice→bob of 10, 10.1 and 5.5. -/
def balanceScenarioEvents : List Event :=
  [ sampleTransferEvent 0 0 (.arr [.str "", .str "alice", .num (Rat.divInt 1001 10)]),
    sampleTransferEvent 0 1 (.arr [.str "alice", .str "bob", .num 10]),
    sampleTransferEvent 2 0 (.arr [.str "alice", .str "bob", .num (Rat.divInt 101 10)]),
    sampleTransferEvent 2 1 (.arr [.str "alice", .str "bob", .num (Rat.divInt 11 2)]) ]

/-- The amount the balances table stores under `(account, chain, module)`,
0 when no row exists. -/
def balance_amount_at (balances : List Balance) (account : String) (chain_id : Int)
    (module : String) : Rat :=
  match balances_find_by_account_chain_and_module balances account chain_id module with
  | some b => b.amount
  | none => 0

/-- The shape the balances table keeps throughout a single-chain replay that
starts from an empty table: every row belongs to the replayed chain, carries a
nonempty account and the TRANSFER qualified name of its module, and the key
`(account, chain, module)` identifies at most one row. -/
def balances_wf (chain_id : Int) (balances : List Balance) : Prop :=
  (∀ b ∈ balances,
    b.account ≠ "" ∧ b.qual_name = b.module ++ ".TRANSFER" ∧ b.chain_id = chain_id) ∧
  List.Pairwise (fun x y =>
    ¬ (x.account = y.account ∧ x.chain_id = y.chain_id ∧ x.module = y.module)) balances

/-! ## Theorems -/

/-- C1 (counterexample). On `params[2] = {"int": 5}` the spec's shared total
rule demands the amount 5, and `make_transfer` indeed produces 5, but
`parse_transfer_event` in `balance.rs` panics (it unwraps the absent
`"decimal"` key): the two derivations do not resolve the amount by the same
total rule, and the balance side is not panic-free. -/
theorem c1_counterexample :
    specAmountRule (Json.obj [("int", Json.num 5)]) = 5 ∧
      make_transfer_amount (Json.obj [("int", Json.num 5)]) = some 5 ∧
      parse_transfer_event_amount (Json.obj [("int", Json.num 5)]) = none := by
  refine ⟨?_, ?_, rfl⟩ <;> with_unfolding_all decide

/-- C1 (amended). The two amount derivations agree — and follow the spec's
rule — on every JSON number, every non-object, and every object whose
`"decimal"` key holds a string. They diverge on objects without a string
under `"decimal"`: `make_transfer` falls back to the integer under `"int"`
(panicking when it is absent or not an integer), while `parse_transfer_event`
always panics there; and on an object whose `"decimal"` value is not a string
both panic. -/
theorem c1_amount_rule_agreement (p2 : Json) :
    (amount_shared_case p2 →
      make_transfer_amount p2 = some (specAmountRule p2) ∧
        parse_transfer_event_amount p2 = some (specAmountRule p2)) ∧
    (p2.is_object = true → p2.get "decimal" = none →
      make_transfer_amount p2 = ((p2.get "int").bind Json.as_i64).map (fun n => (n : Rat)) ∧
        parse_transfer_event_amount p2 = none) ∧
    (p2.is_object = true → ∀ v, p2.get "decimal" = some v → v.as_str = none →
      make_transfer_amount p2 = none ∧ parse_transfer_event_amount p2 = none) := by
  cases p2 with
  | num q => exact ⟨fun _ => ⟨rfl, rfl⟩, fun h => by simp [Json.is_object] at h,
      fun h => by simp [Json.is_object] at h⟩
  | obj fields =>
    refine ⟨?_, ?_, ?_⟩
    · rintro (h | h | ⟨s, hs⟩)
      · simp [Json.is_number] at h
      · simp [Json.is_object] at h
      · obtain ⟨v, hv, hvs⟩ := Option.bind_eq_some.mp hs
        simp only [make_transfer_amount, parse_transfer_event_amount, specAmountRule,
          Json.is_number, Json.is_object, hv, hs, Option.some_bind, hvs, Option.map_some]
        exact ⟨rfl, rfl⟩
    · intro _ hd
      simp only [make_transfer_amount, parse_transfer_event_amount, Json.is_number,
        Json.is_object, hd, Option.bind_none, Option.map_none]
      refine ⟨?_, rfl⟩
      cases hi : (Json.obj fields).get "int" <;> rfl
    · intro _ v hv hvs
      simp only [make_transfer_amount, parse_transfer_event_amount, Json.is_number,
        Json.is_object, hv, Option.some_bind, hvs, Option.map_none]
      exact ⟨rfl, rfl⟩
  | null => exact ⟨fun _ => ⟨rfl, rfl⟩, fun h => by simp [Json.is_object] at h,
      fun h => by simp [Json.is_object] at h⟩
  | bool b => exact ⟨fun _ => ⟨rfl, rfl⟩, fun h => by simp [Json.is_object] at h,
      fun h => by simp [Json.is_object] at h⟩
  | str s => exact ⟨fun _ => ⟨rfl, rfl⟩, fun h => by simp [Json.is_object] at h,
      fun h => by simp [Json.is_object] at h⟩
  | arr items => exact ⟨fun _ => ⟨rfl, rfl⟩, fun h => by simp [Json.is_object] at h,
      fun h => by simp [Json.is_object] at h⟩

/-- C1 (witness): the agreement clause applied to the JSON number 7. -/
theorem c1_witness :
    amount_shared_case (Json.num 7) ∧
      (make_transfer_amount (Json.num 7) = some (specAmountRule (Json.num 7)) ∧
        parse_transfer_event_amount (Json.num 7) = some (specAmountRule (Json.num 7))) :=
  ⟨Or.inl rfl, (c1_amount_rule_agreement (Json.num 7)).1 (Or.inl rfl)⟩

/-- C3: at the failing input — an existing row `(alice, 0, coin)` with amount
5 and height 3, updated with change 2 at event height 7 — the stored row ends
with amount 7 as claimed but height 3, not 7: `BalancesRepository::update`
sets only the `amount` column, although `update_account_balance` passes the
new height in the row. The insert case behaves as claimed. -/
theorem c3_update_keeps_old_height :
    update_account_balance "alice" 0 "coin.TRANSFER" "coin" 7 2
        [{ account := "alice", amount := 5, chain_id := 0, height := 3,
           qual_name := "coin.TRANSFER", module := "coin" }] =
      [{ account := "alice", amount := 7, chain_id := 0, height := 3,
         qual_name := "coin.TRANSFER", module := "coin" }] ∧
    update_account_balance "alice" 0 "coin.TRANSFER" "coin" 7 2 [] =
      [{ account := "alice", amount := 2, chain_id := 0, height := 7,
         qual_name := "coin.TRANSFER", module := "coin" }] := by
  constructor <;> with_unfolding_all decide

/-- C4: when the insert of a streamed block hits the unique violation — an
existing block `orphan` at the same `(chain_id, height)`, as
`find_by_height` reports — `save_block` succeeds (no violation reaches the
caller), its operation trace is exactly delete-events, delete-transactions,
delete-block, insert-new-block in that order, and afterwards the only block
row at that `(chain_id, height)` is the new one. -/
theorem c4_save_block_orphan_replacement (store : Store) (block orphan : Block)
    (hfind : blocks_find_by_height store.blocks block.height block.chain_id = some orphan) :
    save_block store block =
      some ({ blocks := blocks_delete_one store.blocks block.height block.chain_id ++ [block],
              transactions := transactions_delete_all_by_block store.transactions orphan.hash,
              events := events_delete_all_by_block store.events orphan.hash },
            [DbOp.deleteEventsByBlock orphan.hash, DbOp.deleteTxsByBlock orphan.hash,
             DbOp.deleteBlock block.height block.chain_id, DbOp.insertBlock block.hash]) ∧
    (blocks_delete_one store.blocks block.height block.chain_id ++ [block]).filter
        (fun b => decide (b.chain_id = block.chain_id) && decide (b.height = block.height)) =
      [block] := by
  have hmem : orphan ∈ store.blocks := List.mem_of_find?_eq_some hfind
  have hpred := List.find?_some hfind
  simp only [Bool.and_eq_true, decide_eq_true_eq] at hpred
  have hfail : blocks_insert store.blocks block = none := by
    unfold blocks_insert
    rw [if_pos]
    rw [List.any_eq_true]
    exact ⟨orphan, hmem, by simp [hpred.1, hpred.2]⟩
  have hdel : ∀ b ∈ blocks_delete_one store.blocks block.height block.chain_id,
      ¬ (b.chain_id = block.chain_id ∧ b.height = block.height) := by
    intro b hb
    unfold blocks_delete_one at hb
    have := (List.mem_filter.mp hb).2
    simp only [Bool.not_eq_eq_eq_not, Bool.not_true, Bool.and_eq_false_iff,
      decide_eq_false_iff_not] at this
    tauto
  have hins2 : blocks_insert (blocks_delete_one store.blocks block.height block.chain_id) block =
      some (blocks_delete_one store.blocks block.height block.chain_id ++ [block]) := by
    unfold blocks_insert
    rw [if_neg]
    intro hany
    rw [List.any_eq_true] at hany
    obtain ⟨b, hb, hbp⟩ := hany
    simp only [Bool.and_eq_true, decide_eq_true_eq] at hbp
    exact hdel b hb hbp
  constructor
  · unfold save_block
    rw [hfail, hfind]
    simp only [hins2]
  · rw [List.filter_append]
    have h1 : (blocks_delete_one store.blocks block.height block.chain_id).filter
        (fun b => decide (b.chain_id = block.chain_id) && decide (b.height = block.height)) =
        [] := by
      rw [List.filter_eq_nil_iff]
      intro b hb
      simp only [Bool.and_eq_true, decide_eq_true_eq, not_and]
      intro h1 h2
      exact hdel b hb ⟨h1, h2⟩
    rw [h1]
    simp

/-- C4 (witness): a store holding one chain-14 block at height 3882292 and a
new block with a different hash at the same coordinates. -/
theorem c4_witness :
    blocks_find_by_height [({ chain_id := 14, hash := "old", height := 5 } : Block)]
        5 14 = some ({ chain_id := 14, hash := "old", height := 5 } : Block) ∧
    save_block
        { blocks := [({ chain_id := 14, hash := "old", height := 5 } : Block)],
          transactions := [], events := [] }
        ({ chain_id := 14, hash := "new", height := 5 } : Block) =
      some ({ blocks := [({ chain_id := 14, hash := "new", height := 5 } : Block)],
              transactions := [], events := [] },
            [DbOp.deleteEventsByBlock "old", DbOp.deleteTxsByBlock "old",
             DbOp.deleteBlock 5 14, DbOp.insertBlock "new"]) := by
  constructor
  · with_unfolding_all decide
  · have h := (c4_save_block_orphan_replacement
      { blocks := [({ chain_id := 14, hash := "old", height := 5 } : Block)],
        transactions := [],
        events := [] }
      ({ chain_id := 14, hash := "new", height := 5 } : Block)
      ({ chain_id := 14, hash := "old", height := 5 } : Block)
      (by with_unfolding_all decide)).1
    rw [h]
    with_unfolding_all rfl

/-- C5: per cut entry, the scheduler emits exactly the claimed jobs — with
persisted min/max blocks, a forward-fill from the max block's hash to the
cut's hash, plus a backfill up to the min block's hash exactly when the min
height is positive; otherwise the single full-backfill job. Moreover the
min-block lookup is empty exactly when the store holds no block of that
chain, so the "otherwise" case is precisely the chain with no blocks. -/
theorem c5_get_all_bounds_jobs (blocks : List Block)
    (cut_hashes : List (Nat × BlockHash)) :
    get_all_bounds blocks cut_hashes =
      cut_hashes.flatMap (fun entry =>
        match chain_min_block blocks (entry.1 : Int),
            chain_max_block blocks (entry.1 : Int) with
        | some min_block, some max_block =>
          (entry.1, Bounds.mk [max_block.hash] [entry.2.hash]) ::
            (if min_block.height > 0 then [(entry.1, Bounds.mk [] [min_block.hash])] else [])
        | _, _ => [(entry.1, Bounds.mk [] [entry.2.hash])]) ∧
    ∀ chain_id : Int, (chain_min_block blocks chain_id = none ↔
      ∀ b ∈ blocks, ¬ b.chain_id = chain_id) := by
  have hkey : ∀ chain_id : Int,
      (blocks.filter (fun b => decide (b.chain_id = chain_id))) = [] ↔
        ∀ b ∈ blocks, ¬ b.chain_id = chain_id := by
    intro chain_id
    rw [List.filter_eq_nil_iff]
    simp
  have hmin : ∀ chain_id : Int,
      (chain_min_block blocks chain_id = none ↔
        (blocks.filter (fun b => decide (b.chain_id = chain_id))) = []) := by
    intro chain_id
    unfold chain_min_block blocks_find_min_max_height_blocks
    simp only [List.head?_eq_none_iff]
    constructor
    · intro h
      have hperm := List.perm_insertionSort blockHeightLe
        (blocks.filter (fun b => decide (b.chain_id = chain_id)))
      rw [h] at hperm
      exact hperm.symm.eq_nil
    · intro h
      rw [h]
      rfl
  have hmax : ∀ chain_id : Int,
      (chain_max_block blocks chain_id = none ↔
        (blocks.filter (fun b => decide (b.chain_id = chain_id))) = []) := by
    intro chain_id
    unfold chain_max_block blocks_find_min_max_height_blocks
    simp only [List.head?_eq_none_iff]
    constructor
    · intro h
      have hperm := List.perm_insertionSort blockHeightGe
        (blocks.filter (fun b => decide (b.chain_id = chain_id)))
      rw [h] at hperm
      exact hperm.symm.eq_nil
    · intro h
      rw [h]
      rfl
  constructor
  · unfold get_all_bounds
    apply List.flatMap_congr
    intro entry _
    dsimp only
    rcases hp : blocks_find_min_max_height_blocks blocks (entry.1 : Int) with ⟨mn, mx⟩
    have hmn : chain_min_block blocks (entry.1 : Int) = mn := by
      unfold chain_min_block
      rw [hp]
    have hmx : chain_max_block blocks (entry.1 : Int) = mx := by
      unfold chain_max_block
      rw [hp]
    simp only [hp, hmn, hmx]
    cases mn with
    | none =>
      cases mx with
      | none => rfl
      | some mx =>
        exfalso
        have hfil := (hmin (entry.1 : Int)).mp hmn
        have : chain_max_block blocks (entry.1 : Int) = none := (hmax _).mpr hfil
        rw [hmx] at this
        exact Option.noConfusion this
    | some mn =>
      cases mx with
      | none =>
        exfalso
        have hfil := (hmax (entry.1 : Int)).mp hmx
        have : chain_min_block blocks (entry.1 : Int) = none := (hmin _).mpr hfil
        rw [hmn] at this
        exact Option.noConfusion this
      | some mx => rfl
  · intro chain_id
    exact (hmin chain_id).trans (hkey chain_id)

/-- C5 (witness): the chain-0 scenario store (min height 0, max height 10)
with a cut entry at height 12: exactly one forward-fill job and no backfill
job, since the min height is 0. -/
theorem c5_witness :
    get_all_bounds gapScenarioBlocks [(0, { height := 12, hash := "cut-hash" })] =
      [(0, Bounds.mk ["hash-10"] ["cut-hash"])] := by
  rw [(c5_get_all_bounds_jobs gapScenarioBlocks
    [(0, { height := 12, hash := "cut-hash" })]).1]
  with_unfolding_all decide

/-- C6: one iteration of `index_chain` returns `Ok` exactly when the
header-branch response is empty or when the new upper bound — the singleton
of the last returned header's hash — equals the upper bound just used;
otherwise it continues with that new upper bound and the unchanged lower
bound, processing exactly the response's headers. -/
theorem c6_index_chain_termination (bounds : Bounds) (items : List BlockHeader) :
    ((index_chain_step bounds items).1 = none ↔
      items = [] ∨ ∃ last, items.getLast? = some last ∧ bounds.upper = [last.hash]) ∧
    (∀ last, items.getLast? = some last → bounds.upper ≠ [last.hash] →
      index_chain_step bounds items =
        (some { lower := bounds.lower, upper := [last.hash] }, items)) := by
  rcases hl : items.getLast? with _ | last
  · have hstep : index_chain_step bounds items = (none, []) := by
      unfold index_chain_step
      rw [hl]
    simp only [List.getLast?_eq_none_iff] at hl
    subst hl
    refine ⟨?_, ?_⟩
    · simp [hstep]
    · intro last hl2 _
      exact Option.noConfusion hl2
  · have hne : ¬ items = [] := by
      intro h
      rw [h] at hl
      exact Option.noConfusion hl
    have hstep : index_chain_step bounds items =
        if ({ bounds with upper := [last.hash] } : Bounds) = bounds then ((none, []) : Option Bounds × List BlockHeader)
        else (some { bounds with upper := [last.hash] }, items) := by
      unfold index_chain_step
      rw [hl]
    have hiff : (({ bounds with upper := [last.hash] } : Bounds) = bounds) ↔
        bounds.upper = [last.hash] := by
      cases bounds
      simp [Bounds.mk.injEq, eq_comm]
    refine ⟨?_, ?_⟩
    · rw [hstep]
      by_cases hEq : ({ bounds with upper := [last.hash] } : Bounds) = bounds
      · rw [if_pos hEq]
        simp only [true_iff]
        exact Or.inr ⟨last, rfl, hiff.mp hEq⟩
      · rw [if_neg hEq]
        constructor
        · intro h
          exact Option.noConfusion h
        · rintro (h | ⟨last2, hl2, hu⟩)
          · exact absurd h hne
          · cases hl2
            exact absurd (hiff.mpr hu) hEq
    · intro last2 hl2 hu
      cases hl2
      rw [hstep, if_neg]
      intro hEq
      exact hu (hiff.mp hEq)

/-- C6 (witness): a one-header response whose hash differs from the upper
bound continues with the new singleton upper bound and the old (empty) lower
bound. -/
theorem c6_witness :
    ([({ height := 1, hash := "h", payload_hash := "p" } : BlockHeader)].getLast? =
      some { height := 1, hash := "h", payload_hash := "p" }) ∧
    (Bounds.mk [] ["u"]).upper ≠ ["h"] ∧
    index_chain_step (Bounds.mk [] ["u"])
        [{ height := 1, hash := "h", payload_hash := "p" }] =
      (some (Bounds.mk [] ["h"]),
        [{ height := 1, hash := "h", payload_hash := "p" }]) :=
  ⟨rfl, by decide,
    (c6_index_chain_termination (Bounds.mk [] ["u"])
      [{ height := 1, hash := "h", payload_hash := "p" }]).2
      { height := 1, hash := "h", payload_hash := "p" } rfl (by decide)⟩

/-- C10: whenever a nonempty header-branch response's last hash equals the
single hash of the upper bound just used, the iteration of `index_chain`
returns `Ok` without invoking `process_headers`: for every conceivable store
effect of processing, the store is returned untouched — none of that
response's headers, hence none of their transactions or events, is
persisted by that iteration. -/
theorem c10_converged_response_not_persisted {σ : Type}
    (process : List BlockHeader → σ → σ) (store : σ) (bounds : Bounds)
    (items : List BlockHeader) (last : BlockHeader)
    (hl : items.getLast? = some last) (hu : bounds.upper = [last.hash]) :
    index_chain_iterate process store bounds items = (none, store) := by
  have h1 : index_chain_step bounds items =
      if ({ bounds with upper := [last.hash] } : Bounds) = bounds
      then ((none, []) : Option Bounds × List BlockHeader)
      else (some { bounds with upper := [last.hash] }, items) := by
    unfold index_chain_step
    rw [hl]
  have hstep : index_chain_step bounds items = (none, []) := by
    rw [h1, if_pos]
    cases bounds
    simp_all
  unfold index_chain_iterate
  rw [hstep]

/-- C10 (witness): a response consisting only of the upper-bound block itself
leaves a counting store untouched. -/
theorem c10_witness :
    ([({ height := 9, hash := "u", payload_hash := "p" } : BlockHeader)].getLast? =
      some { height := 9, hash := "u", payload_hash := "p" }) ∧
    (Bounds.mk ["l"] ["u"]).upper = ["u"] ∧
    index_chain_iterate (fun headers n => n + headers.length) 0
        (Bounds.mk ["l"] ["u"]) [{ height := 9, hash := "u", payload_hash := "p" }] =
      (none, 0) :=
  ⟨rfl, rfl,
    c10_converged_response_not_persisted (fun headers n => n + headers.length) 0
      (Bounds.mk ["l"] ["u"]) [{ height := 9, hash := "u", payload_hash := "p" }]
      { height := 9, hash := "u", payload_hash := "p" } rfl rfl⟩

/-- C9: when the chain's maximal persisted event height is 0 — every event in
a height-0 block, or no events at all — `backfill_chain` without a starting
height returns `Ok` at once: the transfers table is unchanged and no
`find_by_range` load was issued. -/
theorem c9_backfill_noop (chain_id batch_size : Int) (hbs : 0 < batch_size)
    (events : List Event) (blocks : List Block) (table : List Transfer)
    (hmax : events_find_max_height events chain_id = 0) :
    backfill_chain chain_id batch_size hbs events blocks table none = some (table, []) := by
  unfold backfill_chain
  rw [hmax]
  rw [backfill_chain_loop]
  simp

/-- C9 (witness): a chain whose only event sits at height 0. -/
theorem c9_witness :
    (0 : Int) < 1 ∧
    events_find_max_height
        [sampleTransferEvent 0 0 (.arr [.str "a", .str "b", .num 1])] 0 = 0 ∧
    backfill_chain 0 1 (by norm_num)
        [sampleTransferEvent 0 0 (.arr [.str "a", .str "b", .num 1])] [] [] none =
      some ([], []) :=
  ⟨by norm_num, by with_unfolding_all decide,
    c9_backfill_noop 0 1 (by norm_num)
      [sampleTransferEvent 0 0 (.arr [.str "a", .str "b", .num 1])] [] []
      (by with_unfolding_all decide)⟩

/-- Propagation helper: once the accumulator of the `update_balances` fold is
`none` (a parse panic), it stays `none`. -/
theorem foldl_apply_transfer_event_none (evs : List Event) :
    evs.foldl apply_transfer_event none = none := by
  induction evs with
  | nil => rfl
  | cons e rest ih => exact ih

/-- C7 (counterexample). Two TRANSFER events share height 0 and sit in the
table with idx 1 before idx 0. The embedded `find_by_range` returns them in
that order, and that result satisfies everything the SQL guarantees — it is a
permutation of the matching rows sorted by `height` ascending (the query's
only `ORDER BY` key) — yet it is not sorted by `(height, idx)`: the claimed
idx tiebreak is not ensured by the code. -/
theorem c7_counterexample :
    events_find_by_range
        [sampleTransferEvent 0 1 (.arr []), sampleTransferEvent 0 0 (.arr [])] 0 0 0 =
      [sampleTransferEvent 0 1 (.arr []), sampleTransferEvent 0 0 (.arr [])] ∧
    events_range_result_ok
        [sampleTransferEvent 0 1 (.arr []), sampleTransferEvent 0 0 (.arr [])] 0 0 0
        [sampleTransferEvent 0 1 (.arr []), sampleTransferEvent 0 0 (.arr [])] ∧
    ¬ List.Sorted eventHeightIdxLe
        [sampleTransferEvent 0 1 (.arr []), sampleTransferEvent 0 0 (.arr [])] := by
  refine ⟨by with_unfolding_all rfl, ⟨?_, ?_⟩, ?_⟩
  · with_unfolding_all exact List.Perm.refl _
  · rw [List.sorted_cons]
    refine ⟨?_, List.sorted_singleton _⟩
    intro b hb
    rw [List.mem_singleton] at hb
    subst hb
    with_unfolding_all decide
  · intro h
    rw [List.sorted_cons] at h
    have := h.1 _ (List.mem_singleton.mpr rfl)
    revert this
    with_unfolding_all decide

/-- C7 (amended). The events repository's `find_by_range` guarantees exactly:
the result is a permutation of the chain's events in the height range, sorted
by `height` ascending — within equal heights the order is unspecified (the
query has no idx tiebreak). `update_balances` applies the returned list in
exactly its list order (it is the in-order left fold of
`apply_transfer_event`). -/
theorem c7_batch_order (events : List Event) (min_height max_height chain_id : Int) :
    events_range_result_ok events min_height max_height chain_id
        (events_find_by_range events min_height max_height chain_id) ∧
    (∀ result, events_range_result_ok events min_height max_height chain_id result →
      List.Sorted eventHeightLe result) ∧
    (∀ evs balances, update_balances evs balances =
      evs.foldl apply_transfer_event (some balances)) := by
  refine ⟨⟨List.perm_insertionSort _ _, List.sorted_insertionSort _ _⟩,
    fun result h => h.2, ?_⟩
  intro evs
  induction evs with
  | nil => intro balances; rfl
  | cons e rest ih =>
    intro balances
    show update_balances (e :: rest) balances =
      rest.foldl apply_transfer_event (apply_transfer_event (some balances) e)
    unfold update_balances apply_transfer_event
    simp only [Option.some_bind]
    by_cases hbt : is_balance_transfer e
    · rw [if_pos hbt, if_pos hbt]
      cases hp : parse_transfer_event e with
      | none => exact (foldl_apply_transfer_event_none rest).symm
      | some triple =>
        rcases triple with ⟨sender, receiver, amount⟩
        exact ih _
    · rw [if_neg hbt, if_neg hbt]
      exact ih balances

/-- C7 (witness): the guaranteed contract holds of a concrete one-event
query result. -/
theorem c7_witness :
    events_range_result_ok [sampleTransferEvent 0 0 (.arr [])] 0 0 0
      (events_find_by_range [sampleTransferEvent 0 0 (.arr [])] 0 0 0) :=
  (c7_batch_order [sampleTransferEvent 0 0 (.arr [])] 0 0 0).1

/-- Membership in a block range query: exactly the chain's blocks inside the
inclusive height range. -/
theorem mem_blocks_find_by_range (blocks : List Block) (lo hi c : Int) (x : Block) :
    x ∈ blocks_find_by_range blocks lo hi c ↔
      x ∈ blocks ∧ lo ≤ x.height ∧ x.height ≤ hi ∧ x.chain_id = c := by
  unfold blocks_find_by_range
  rw [(List.perm_insertionSort _ _).mem_iff, List.mem_filter]
  simp [and_assoc]

/-- A block range query result is sorted by height descending. -/
theorem sorted_blocks_find_by_range (blocks : List Block) (lo hi c : Int) :
    List.Sorted blockHeightGe (blocks_find_by_range blocks lo hi c) :=
  List.sorted_insertionSort blockHeightGe _

/-- Soundness of the inner scan of `find_gaps_in_range`: walking a
height-descending list `L` of blocks that (i) all lie at or above `lo`,
(ii) all lie at or below the carried `previous_block`, and (iii) contains
every chain block of height in `[lo, previous_block.height)`, every pushed
pair is a genuine gap, afterwards no chain block of height in
`[lo, result.height)` exists, and the final carried block is the initial one
or a member of `L`. -/
theorem gaps_scan_sound (blocks : List Block) (chain lo : Int) :
    ∀ (L : List Block) (p : Block) (gaps : List (Block × Block)),
    List.Sorted blockHeightGe L →
    (∀ b ∈ L, lo ≤ b.height) →
    (∀ b ∈ L, b.height ≤ p.height) →
    (∀ x ∈ blocks, x.chain_id = chain → lo ≤ x.height → x.height < p.height → x ∈ L) →
    (∀ g ∈ gaps, g.2.height - g.1.height > 1 ∧
      ∀ x ∈ blocks, x.chain_id = chain →
        ¬ (g.1.height < x.height ∧ x.height < g.2.height)) →
    (∀ g ∈ (gaps_scan L p gaps).1, g.2.height - g.1.height > 1 ∧
      ∀ x ∈ blocks, x.chain_id = chain →
        ¬ (g.1.height < x.height ∧ x.height < g.2.height)) ∧
    (∀ x ∈ blocks, x.chain_id = chain → lo ≤ x.height →
      x.height < (gaps_scan L p gaps).2.height → False) ∧
    ((gaps_scan L p gaps).2 = p ∨ (gaps_scan L p gaps).2 ∈ L) := by
  intro L
  induction L with
  | nil =>
    intro p gaps _ _ _ hcomp hgaps
    refine ⟨hgaps, ?_, Or.inl rfl⟩
    intro x hx hc hlo hlt
    exact absurd (hcomp x hx hc hlo hlt) (List.not_mem_nil x)
  | cons b rest ih =>
    intro p gaps hsorted hrange hble hcomp hgaps
    obtain ⟨hhead, htail⟩ := List.sorted_cons.mp hsorted
    have hbp : b.height ≤ p.height := hble b (List.mem_cons_self b rest)
    have hblo : lo ≤ b.height := hrange b (List.mem_cons_self b rest)
    have hcomp' : ∀ x ∈ blocks, x.chain_id = chain → lo ≤ x.height →
        x.height < b.height → x ∈ rest := by
      intro x hx hc hlo hlt
      have hmem := hcomp x hx hc hlo (lt_of_lt_of_le hlt hbp)
      rcases List.mem_cons.mp hmem with rfl | h
      · exact absurd hlt (lt_irrefl _)
      · exact h
    have hgaps' : ∀ g ∈ (if p.height - b.height > 1 then gaps ++ [(b, p)] else gaps),
        g.2.height - g.1.height > 1 ∧
          ∀ x ∈ blocks, x.chain_id = chain →
            ¬ (g.1.height < x.height ∧ x.height < g.2.height) := by
      split_ifs with hgt
      · intro g hg
        rcases List.mem_append.mp hg with h | h
        · exact hgaps g h
        · rw [List.mem_singleton] at h
          subst h
          constructor
          · show p.height - b.height > 1
            exact hgt
          · rintro x hx hc ⟨h1, h2⟩
            have h1b : b.height < x.height := h1
            have h2p : x.height < p.height := h2
            have hxlo : lo ≤ x.height := le_trans hblo (le_of_lt h1b)
            have hmem := hcomp x hx hc hxlo h2p
            rcases List.mem_cons.mp hmem with rfl | h
            · exact absurd h1b (lt_irrefl _)
            · have hxb : x.height ≤ b.height := hhead x h
              omega
      · exact hgaps
    have step : gaps_scan (b :: rest) p gaps =
        gaps_scan rest b (if p.height - b.height > 1 then gaps ++ [(b, p)] else gaps) := rfl
    rw [step]
    have := ih b (if p.height - b.height > 1 then gaps ++ [(b, p)] else gaps)
      htail (fun y hy => hrange y (List.mem_cons_of_mem b hy))
      (fun y hy => hhead y hy) hcomp' hgaps'
    refine ⟨this.1, this.2.1, ?_⟩
    rcases this.2.2 with h | h
    · rw [h]
      exact Or.inr (List.mem_cons_self b rest)
    · exact Or.inr (List.mem_cons_of_mem b h)

/-- Soundness of the batching loop of `find_gaps_in_range`: under the carry
invariant — the carried block (when present) sits at or above the current
`max_height` with no chain block strictly between — every pair the loop
returns beyond the already-sound accumulator is a gap: heights more than 1
apart with no chain block strictly between. -/
theorem find_gaps_in_range_loop_sound (blocks : List Block) (min_height chain : Int) :
    ∀ (n : Nat) (max_height : Int), (max_height - min_height).toNat ≤ n →
    ∀ (gaps : List (Block × Block)) (last_block : Option Block),
    (∀ g ∈ gaps, g.2.height - g.1.height > 1 ∧
      ∀ x ∈ blocks, x.chain_id = chain →
        ¬ (g.1.height < x.height ∧ x.height < g.2.height)) →
    (∀ p, last_block = some p → max_height ≤ p.height ∧
      ∀ x ∈ blocks, x.chain_id = chain →
        ¬ (max_height < x.height ∧ x.height < p.height)) →
    ∀ g ∈ find_gaps_in_range_loop blocks min_height chain gaps last_block max_height,
      g.2.height - g.1.height > 1 ∧
        ∀ x ∈ blocks, x.chain_id = chain →
          ¬ (g.1.height < x.height ∧ x.height < g.2.height) := by
  intro n
  induction n with
  | zero =>
    intro M hM gaps last_block hgaps _
    have hstop : M ≤ min_height := by omega
    rw [find_gaps_in_range_loop, dif_pos hstop]
    exact hgaps
  | succ n ih =>
    intro M hM gaps last_block hgaps hcarry
    by_cases hstop : M ≤ min_height
    · rw [find_gaps_in_range_loop, dif_pos hstop]
      exact hgaps
    · rw [find_gaps_in_range_loop, dif_neg hstop]
      have hMn : (M - 100 - min_height).toNat ≤ n := by omega
      cases hB : blocks_find_by_range blocks (M - 100) M chain with
      | nil =>
        apply ih (M - 100) hMn gaps last_block hgaps
        intro p hp
        obtain ⟨hple, hnone⟩ := hcarry p hp
        refine ⟨by omega, ?_⟩
        rintro x hx hc ⟨h1, h2⟩
        by_cases hxm : x.height ≤ M
        · have : x ∈ blocks_find_by_range blocks (M - 100) M chain :=
            (mem_blocks_find_by_range blocks (M - 100) M chain x).mpr
              ⟨hx, by omega, hxm, hc⟩
          rw [hB] at this
          exact absurd this (List.not_mem_nil x)
        · exact hnone x hx hc ⟨by omega, h2⟩
      | cons b bs =>
        have hsorted : List.Sorted blockHeightGe (b :: bs) := by
          rw [← hB]
          exact sorted_blocks_find_by_range blocks (M - 100) M chain
        have hmemrange : ∀ y ∈ b :: bs,
            y ∈ blocks ∧ M - 100 ≤ y.height ∧ y.height ≤ M ∧ y.chain_id = chain := by
          intro y hy
          rw [← hB] at hy
          exact (mem_blocks_find_by_range blocks (M - 100) M chain y).mp hy
        have hcompB : ∀ x ∈ blocks, x.chain_id = chain → M - 100 ≤ x.height →
            x.height ≤ M → x ∈ b :: bs := by
          intro x hx hc h1 h2
          rw [← hB]
          exact (mem_blocks_find_by_range blocks (M - 100) M chain x).mpr ⟨hx, h1, h2, hc⟩
        obtain ⟨hheadB, htailB⟩ := List.sorted_cons.mp hsorted
        have hbmax : ∀ y ∈ b :: bs, y.height ≤ b.height := by
          intro y hy
          rcases List.mem_cons.mp hy with rfl | h
          · exact le_refl _
          · exact hheadB y h
        have hscan : ∀ (p0 : Block) (hble : ∀ y ∈ b :: bs, y.height ≤ p0.height)
            (hcomp : ∀ x ∈ blocks, x.chain_id = chain → M - 100 ≤ x.height →
              x.height < p0.height → x ∈ b :: bs),
            (∀ g ∈ (gaps_scan (b :: bs) p0 gaps).1, g.2.height - g.1.height > 1 ∧
              ∀ x ∈ blocks, x.chain_id = chain →
                ¬ (g.1.height < x.height ∧ x.height < g.2.height)) ∧
            (∀ x ∈ blocks, x.chain_id = chain → M - 100 ≤ x.height →
              x.height < (gaps_scan (b :: bs) p0 gaps).2.height → False) ∧
            ((gaps_scan (b :: bs) p0 gaps).2 = p0 ∨ (gaps_scan (b :: bs) p0 gaps).2 ∈ b :: bs) :=
          fun p0 hble hcomp =>
            gaps_scan_sound blocks chain (M - 100) (b :: bs) p0 gaps hsorted
              (fun y hy => (hmemrange y hy).2.1) hble hcomp hgaps
        cases hlast : last_block with
        | none =>
          dsimp only
          have hgetlast : (b :: bs).getLast (by simp) ∈ b :: bs := List.getLast_mem _
          have hg0 : ((b :: bs).getLast (by simp)).height ≤ b.height := hbmax _ hgetlast
          have hunroll : gaps_scan (b :: bs) ((b :: bs).getLast (by simp)) gaps =
              gaps_scan bs b gaps := by
            show gaps_scan bs b
              (if ((b :: bs).getLast (by simp)).height - b.height > 1 then
                gaps ++ [(b, (b :: bs).getLast (by simp))] else gaps) = gaps_scan bs b gaps
            rw [if_neg (by omega)]
          have hres := gaps_scan_sound blocks chain (M - 100) bs b gaps htailB
            (fun y hy => (hmemrange y (List.mem_cons_of_mem b hy)).2.1)
            (fun y hy => hheadB y hy)
            (by
              intro x hx hc h1 h2
              have hxM : x.height ≤ M :=
                le_trans (le_of_lt h2) (hmemrange b (List.mem_cons_self b bs)).2.2.1
              have := hcompB x hx hc h1 hxM
              rcases List.mem_cons.mp this with rfl | h
              · exact absurd h2 (lt_irrefl _)
              · exact h)
            hgaps
          rw [hunroll]
          apply ih (M - 100) hMn _ _ hres.1
          intro p hp
          injection hp with hp
          subst hp
          constructor
          · rcases hres.2.2 with h | h
            · rw [h]
              exact (hmemrange b (List.mem_cons_self b bs)).2.1
            · exact (hmemrange _ (List.mem_cons_of_mem b h)).2.1
          · rintro x hx hc ⟨h1, h2⟩
            exact hres.2.1 x hx hc (by omega) h2
        | some p =>
          dsimp only
          obtain ⟨hple, hnone⟩ := hcarry p hlast
          have hble : ∀ y ∈ b :: bs, y.height ≤ p.height := by
            intro y hy
            exact le_trans (hmemrange y hy).2.2.1 hple
          have hcomp : ∀ x ∈ blocks, x.chain_id = chain → M - 100 ≤ x.height →
              x.height < p.height → x ∈ b :: bs := by
            intro x hx hc h1 h2
            by_cases hxm : x.height ≤ M
            · exact hcompB x hx hc h1 hxm
            · exact absurd ⟨by omega, h2⟩ (hnone x hx hc)
          have hres := hscan p hble hcomp
          apply ih (M - 100) hMn _ _ hres.1
          intro q hq
          injection hq with hq
          subst hq
          constructor
          · rcases hres.2.2 with h | h
            · rw [h]
              omega
            · exact (hmemrange _ h).2.1
          · rintro x hx hc ⟨h1, h2⟩
            exact hres.2.1 x hx hc (by omega) h2

/-- C8: on chain 0 with persisted heights `{0,1,2,4,5,9,10}` the gap finder
returns exactly the two pairs with heights `(5,9)` and `(2,4)` (in scan
order); and in general every pair `find_gaps` returns brackets a true gap —
heights more than 1 apart with no persisted block of that chain strictly
between them. -/
theorem c8_find_gaps :
    ((find_gaps 0 gapScenarioBlocks).map (fun g => (g.1.height, g.2.height)) =
      [(5, 9), (2, 4)]) ∧
    ∀ (blocks : List Block) (chain_id : Int) (g : Block × Block),
      g ∈ find_gaps chain_id blocks →
      g.2.height - g.1.height > 1 ∧
        ∀ x ∈ blocks, x.chain_id = chain_id →
          ¬ (g.1.height < x.height ∧ x.height < g.2.height) := by
  constructor
  · unfold find_gaps find_gaps_in_range
    unfold find_gaps_in_range_loop
    norm_num
    unfold find_gaps_in_range_loop
    norm_num
    with_unfolding_all decide
  · intro blocks chain_id g hg
    unfold find_gaps at hg
    split at hg
    · exact absurd hg (List.not_mem_nil g)
    · rcases hmm : blocks_find_min_max_height_blocks blocks chain_id with ⟨mno, mxo⟩
      rw [hmm] at hg
      cases mno with
      | none =>
        cases mxo with
        | none => simp at hg
        | some mx => simp at hg
      | some mn =>
        cases mxo with
        | none => simp at hg
        | some mx =>
          dsimp only at hg
          split at hg <;> split at hg
          · exact absurd hg (List.not_mem_nil g)
          · unfold find_gaps_in_range at hg
            exact find_gaps_in_range_loop_sound blocks mn.height chain_id
              ((mx.height - mn.height).toNat) mx.height (le_refl _) [] none
              (fun g2 hg2 => absurd hg2 (List.not_mem_nil g2))
              (fun p hp => Option.noConfusion hp) g hg
          · exact absurd hg (List.not_mem_nil g)
          · unfold find_gaps_in_range at hg
            exact find_gaps_in_range_loop_sound blocks mn.height chain_id
              ((mx.height - mn.height).toNat) mx.height (le_refl _) [] none
              (fun g2 hg2 => absurd hg2 (List.not_mem_nil g2))
              (fun p hp => Option.noConfusion hp) g hg

/-- C8 (witness): the general gap property applied to the first pair of the
concrete scenario. -/
theorem c8_witness :
    (gapScenarioBlocks.get ⟨4, by norm_num [gapScenarioBlocks]⟩,
        gapScenarioBlocks.get ⟨5, by norm_num [gapScenarioBlocks]⟩) ∈
      find_gaps 0 gapScenarioBlocks ∧
    ((gapScenarioBlocks.get ⟨5, by norm_num [gapScenarioBlocks]⟩).height -
        (gapScenarioBlocks.get ⟨4, by norm_num [gapScenarioBlocks]⟩).height > 1 ∧
      ∀ x ∈ gapScenarioBlocks, x.chain_id = 0 →
        ¬ ((gapScenarioBlocks.get ⟨4, by norm_num [gapScenarioBlocks]⟩).height < x.height ∧
          x.height < (gapScenarioBlocks.get ⟨5, by norm_num [gapScenarioBlocks]⟩).height)) := by
  have hmem : (gapScenarioBlocks.get ⟨4, by norm_num [gapScenarioBlocks]⟩,
      gapScenarioBlocks.get ⟨5, by norm_num [gapScenarioBlocks]⟩) ∈
      find_gaps 0 gapScenarioBlocks := by
    unfold find_gaps find_gaps_in_range
    norm_num
    unfold find_gaps_in_range_loop
    norm_num
    unfold find_gaps_in_range_loop
    norm_num
    with_unfolding_all decide
  exact ⟨hmem, (c8_find_gaps.2 gapScenarioBlocks 0 _ hmem)⟩

/-! ### Infrastructure for the balance fold law (C2) -/

/-- `foldl max` dominates its seed and every list element. -/
theorem int_foldl_max (t : List Int) :
    ∀ a : Int, a ≤ t.foldl max a ∧ ∀ x ∈ t, x ≤ t.foldl max a := by
  induction t with
  | nil =>
    intro a
    exact ⟨le_refl a, by simp⟩
  | cons b t ih =>
    intro a
    have h1 := ih (max a b)
    refine ⟨le_trans (le_max_left a b) h1.1, ?_⟩
    intro x hx
    rcases List.mem_cons.mp hx with rfl | hx
    · exact le_trans (le_max_right a x) h1.1
    · exact h1.2 x hx

/-- Every member of an integer list is at most its `max?` (any default). -/
theorem le_max_getD (l : List Int) (x : Int) (hx : x ∈ l) (d : Int) :
    x ≤ l.max?.getD d := by
  cases l with
  | nil => cases hx
  | cons a t =>
    rw [List.max?_cons']
    rcases List.mem_cons.mp hx with rfl | hx
    · simpa using (int_foldl_max t x).1
    · simpa using (int_foldl_max t a).2 x hx

/-- No persisted event of the chain exceeds `find_max_height`. -/
theorem height_le_events_find_max_height (events : List Event) (c : Int) (e : Event)
    (he : e ∈ events) (hc : e.chain_id = c) :
    e.height ≤ events_find_max_height events c := by
  unfold events_find_max_height
  apply le_max_getD
  rw [List.mem_map]
  exact ⟨e, List.mem_filter.mpr ⟨he, by simp [hc]⟩, rfl⟩

/-- Membership in an event range query: exactly the chain's events inside the
inclusive height range. -/
theorem mem_events_find_by_range (events : List Event) (lo hi c : Int) (x : Event) :
    x ∈ events_find_by_range events lo hi c ↔
      x ∈ events ∧ x.chain_id = c ∧ lo ≤ x.height ∧ x.height ≤ hi := by
  unfold events_find_by_range
  rw [(List.perm_insertionSort _ _).mem_iff, List.mem_filter]
  simp [and_assoc]

/-- An empty range query result means the chain has no event in the range. -/
theorem events_find_by_range_eq_nil (events : List Event) (lo hi c : Int)
    (h : events_find_by_range events lo hi c = []) :
    ∀ x ∈ events, x.chain_id = c → ¬ (lo ≤ x.height ∧ x.height ≤ hi) := by
  rintro x hx hc ⟨h1, h2⟩
  have hm : x ∈ events_find_by_range events lo hi c :=
    (mem_events_find_by_range events lo hi c x).mpr ⟨hx, hc, h1, h2⟩
  rw [h] at hm
  exact absurd hm (List.not_mem_nil x)

/-- Splitting a filtered sum along a second predicate. -/
theorem sum_map_filter_split (l : List Event) (P Q : Event → Bool) (f : Event → Rat) :
    ((l.filter P).map f).sum =
      ((l.filter (fun e => P e && Q e)).map f).sum +
        ((l.filter (fun e => P e && !Q e)).map f).sum := by
  induction l with
  | nil => simp
  | cons e t ih =>
    by_cases hP : P e <;> by_cases hQ : Q e <;>
      simp [List.filter_cons, hP, hQ, ih] <;> ring

/-- A sum over a difference of maps is the difference of the sums. -/
theorem sum_map_sub (l : List Event) (f g : Event → Rat) :
    (l.map (fun e => f e - g e)).sum = (l.map f).sum - (l.map g).sum := by
  induction l with
  | nil => simp
  | cons e t ih =>
    simp only [List.map_cons, List.sum_cons, ih]
    ring

/-- A filtered-map sum as a plain map sum with `if`. -/
theorem sum_filter_map_eq_sum_ite (l : List Event) (p : Event → Bool) (f : Event → Rat) :
    ((l.filter p).map f).sum = (l.map (fun e => if p e then f e else 0)).sum := by
  induction l with
  | nil => rfl
  | cons e t ih =>
    by_cases hp : p e <;> simp [List.filter_cons, hp, ih]

/-- Appending a fixed suffix to strings is injective. -/
theorem string_append_cancel (s1 s2 t : String) (h : s1 ++ t = s2 ++ t) : s1 = s2 := by
  have hd : s1.data ++ t.data = s2.data ++ t.data := by
    rw [← String.data_append, ← String.data_append, h]
  exact String.ext (List.append_cancel_right hd)

/-- The repository's balance `UPDATE` seen through the key lookup: the lookup
commutes with the amount rewrite (it touches no key column). -/
theorem balances_update_entry_key (nb b : Balance) :
    ((if b.account = nb.account ∧ b.chain_id = nb.chain_id ∧ b.qual_name = nb.qual_name
      then { b with amount := nb.amount } else b) : Balance).account = b.account ∧
    ((if b.account = nb.account ∧ b.chain_id = nb.chain_id ∧ b.qual_name = nb.qual_name
      then { b with amount := nb.amount } else b) : Balance).chain_id = b.chain_id ∧
    ((if b.account = nb.account ∧ b.chain_id = nb.chain_id ∧ b.qual_name = nb.qual_name
      then { b with amount := nb.amount } else b) : Balance).module = b.module := by
  split <;> exact ⟨rfl, rfl, rfl⟩

theorem balances_update_find (t : List Balance) (nb : Balance)
    (a2 : String) (c2 : Int) (m2 : String) :
    balances_find_by_account_chain_and_module (balances_update t nb) a2 c2 m2 =
      (balances_find_by_account_chain_and_module t a2 c2 m2).map (fun b =>
        if b.account = nb.account ∧ b.chain_id = nb.chain_id ∧ b.qual_name = nb.qual_name
        then { b with amount := nb.amount } else b) := by
  induction t with
  | nil => rfl
  | cons x t ih =>
    unfold balances_update at ih ⊢
    unfold balances_find_by_account_chain_and_module at ih ⊢
    rw [List.map_cons, List.find?_cons, List.find?_cons]
    have hkey := balances_update_entry_key nb x
    rw [hkey.1, hkey.2.1, hkey.2.2]
    by_cases hx : (decide (x.account = a2) && decide (x.chain_id = c2) &&
        decide (x.module = m2)) = true
    · simp only [hx]
      rfl
    · simp only [Bool.not_eq_true] at hx
      simp only [hx]
      exact ih

/-- The key fact about one balance upsert during a chain-`c` replay: it keeps
the table well-formed, adds exactly `change` to the amount stored at the
touched `(account, chain, module)` key, and leaves every other key's amount
unchanged. -/
theorem update_account_balance_spec (c : Int) (t : List Balance)
    (hwf : balances_wf c t) (a : String) (ha : ¬ a = "") (m q : String)
    (hq : q = m ++ ".TRANSFER") (h : Int) (d : Rat) :
    balances_wf c (update_account_balance a c q m h d t) ∧
    balance_amount_at (update_account_balance a c q m h d t) a c m =
      balance_amount_at t a c m + d ∧
    ∀ a2 c2 m2, ¬ (a2 = a ∧ c2 = c ∧ m2 = m) →
      balance_amount_at (update_account_balance a c q m h d t) a2 c2 m2 =
        balance_amount_at t a2 c2 m2 := by
  obtain ⟨hrows, hpair⟩ := hwf
  unfold update_account_balance
  cases hf : balances_find_by_account_chain_and_module t a c m with
  | some bal =>
    have hbal_mem : bal ∈ t := List.mem_of_find?_eq_some hf
    have hbal_p := List.find?_some hf
    simp only [Bool.and_eq_true, decide_eq_true_eq] at hbal_p
    obtain ⟨⟨hba, hbc⟩, hbm⟩ := hbal_p
    have hbq : bal.qual_name = m ++ ".TRANSFER" := by
      rw [(hrows bal hbal_mem).2.1, hbm]
    refine ⟨⟨?_, ?_⟩, ?_, ?_⟩
    · intro b hb
      unfold balances_update at hb
      rw [List.mem_map] at hb
      obtain ⟨b0, hb0, rfl⟩ := hb
      split
      · exact ⟨(hrows b0 hb0).1, (hrows b0 hb0).2.1, (hrows b0 hb0).2.2⟩
      · exact hrows b0 hb0
    · unfold balances_update
      refine List.Pairwise.map _ ?_ hpair
      intro x y hxy
      split <;> split <;> exact hxy
    · unfold balance_amount_at
      rw [balances_update_find, hf]
      rw [Option.map_some']
      rw [if_pos ⟨rfl, rfl, rfl⟩]
    · intro a2 c2 m2 hne
      unfold balance_amount_at
      rw [balances_update_find]
      cases hf2 : balances_find_by_account_chain_and_module t a2 c2 m2 with
      | none => rfl
      | some b2 =>
        have hb2_mem : b2 ∈ t := List.mem_of_find?_eq_some hf2
        have hb2_p := List.find?_some hf2
        simp only [Bool.and_eq_true, decide_eq_true_eq] at hb2_p
        obtain ⟨⟨h2a, h2c⟩, h2m⟩ := hb2_p
        rw [Option.map_some']
        rw [if_neg]
        rintro ⟨hc1, hc2, hc3⟩
        apply hne
        refine ⟨?_, ?_, ?_⟩
        · rw [← h2a, hc1]
          show bal.account = a
          exact hba
        · rw [← h2c, hc2]
          show bal.chain_id = c
          exact hbc
        · have hq2 : b2.qual_name = b2.module ++ ".TRANSFER" :=
            (hrows b2 hb2_mem).2.1
          have : b2.module ++ ".TRANSFER" = m ++ ".TRANSFER" := by
            rw [← hq2, hc3]
            show bal.qual_name = m ++ ".TRANSFER"
            exact hbq
          rw [← h2m]
          exact string_append_cancel _ _ _ this
  | none =>
    have hf' : List.find? (fun b => decide (b.account = a) && decide (b.chain_id = c) &&
        decide (b.module = m)) t = none := hf
    have hnotin : ∀ x ∈ t, ¬ (x.account = a ∧ x.chain_id = c ∧ x.module = m) := by
      intro x hx hcontra
      have hpx := List.find?_eq_none.mp hf' x hx
      simp only [Bool.and_eq_true, decide_eq_true_eq] at hpx
      exact hpx ⟨⟨hcontra.1, hcontra.2.1⟩, hcontra.2.2⟩
    refine ⟨⟨?_, ?_⟩, ?_, ?_⟩
    · intro b hb
      unfold balances_insert at hb
      rcases List.mem_append.mp hb with hb | hb
      · exact hrows b hb
      · rw [List.mem_singleton] at hb
        subst hb
        exact ⟨ha, hq, rfl⟩
    · unfold balances_insert
      rw [List.pairwise_append]
      refine ⟨hpair, List.pairwise_singleton _ _, ?_⟩
      intro x hx y hy
      rw [List.mem_singleton] at hy
      subst hy
      exact hnotin x hx
    · unfold balance_amount_at balances_find_by_account_chain_and_module
      unfold balances_insert
      rw [List.find?_append, hf']
      rw [List.find?_cons_of_pos _ (by simp)]
      show d = 0 + d
      ring
    · intro a2 c2 m2 hne
      unfold balance_amount_at balances_find_by_account_chain_and_module
      unfold balances_insert
      rw [List.find?_append]
      have hnb : (List.find? (fun b : Balance => decide (b.account = a2) &&
          decide (b.chain_id = c2) && decide (b.module = m2))
          [{ account := a, amount := d, chain_id := c, height := h,
             qual_name := q, module := m }]) = none := by
        rw [List.find?_eq_none]
        intro x hx
        rw [List.mem_singleton] at hx
        subst hx
        simp only [Bool.and_eq_true, decide_eq_true_eq]
        rintro ⟨⟨h1, h2⟩, h3⟩
        exact hne ⟨h1.symm, h2.symm, h3.symm⟩
      rw [hnb]
      rcases hfind : List.find? (fun b : Balance => decide (b.account = a2) &&
          decide (b.chain_id = c2) && decide (b.module = m2)) t with _ | b3 <;> rfl
/-- Inversion of a successful `parse_transfer_event`. -/
theorem parse_transfer_event_inv (e : Event) (so ro : Option String) (amt : Rat)
    (hp : parse_transfer_event e = some (so, ro, amt)) :
    ∃ sender receiver, (e.params.index 0).as_str = some sender ∧
      (e.params.index 1).as_str = some receiver ∧
      parse_transfer_event_amount (e.params.index 2) = some amt ∧
      so = (if sender = "" then none else some sender) ∧
      ro = (if receiver = "" then none else some receiver) := by
  unfold parse_transfer_event at hp
  cases h0 : (e.params.index 0).as_str with
  | none =>
    rw [h0] at hp
    exact Option.noConfusion hp
  | some sender =>
    rw [h0] at hp
    cases h1 : (e.params.index 1).as_str with
    | none =>
      rw [h1] at hp
      exact Option.noConfusion hp
    | some receiver =>
      rw [h1] at hp
      cases h2 : parse_transfer_event_amount (e.params.index 2) with
      | none =>
        rw [h2] at hp
        exact Option.noConfusion hp
      | some amt2 =>
        rw [h2] at hp
        have hp2 : ((if sender = "" then none else some sender),
            (if receiver = "" then none else some receiver), amt2) = (so, ro, amt) :=
          Option.some.inj hp
        have hsnd := congrArg (fun x => x.1) hp2
        have hrcv := congrArg (fun x => x.2.1) hp2
        have hamt := congrArg (fun x => x.2.2) hp2
        simp only at hsnd hrcv hamt
        exact ⟨sender, receiver, rfl, rfl, congrArg some hamt, hsnd.symm, hrcv.symm⟩

/-- One sender- or receiver-side branch of the `update_balances` body: apply
`change` at the key `(acct, c, e.module)` unless the account is empty; the
stored amount moves by `change` exactly at that key. -/
theorem update_branch_spec (c : Int) (t : List Balance) (hwf : balances_wf c t)
    (acct : String) (change : Rat) (m q : String) (hq : q = m ++ ".TRANSFER") (h : Int) :
    balances_wf c (match (if acct = "" then none else some acct) with
      | some s => update_account_balance s c q m h change t
      | none => t) ∧
    ∀ a2 c2 m2, ¬ a2 = "" →
      balance_amount_at (match (if acct = "" then none else some acct) with
        | some s => update_account_balance s c q m h change t
        | none => t) a2 c2 m2 =
      balance_amount_at t a2 c2 m2 + (if c2 = c ∧ m2 = m ∧ a2 = acct then change else 0) := by
  by_cases hacct : acct = ""
  · rw [if_pos hacct]
    refine ⟨hwf, ?_⟩
    intro a2 c2 m2 ha2
    rw [if_neg]
    · ring
    · rintro ⟨_, _, h3⟩
      exact ha2 (h3.trans hacct)
  · rw [if_neg hacct]
    have hA := update_account_balance_spec c t hwf acct hacct m q hq h change
    refine ⟨hA.1, ?_⟩
    intro a2 c2 m2 ha2
    by_cases hkey : a2 = acct ∧ c2 = c ∧ m2 = m
    · obtain ⟨k1, k2, k3⟩ := hkey
      subst k1
      subst k2
      subst k3
      rw [hA.2.1, if_pos ⟨rfl, rfl, rfl⟩]
    · rw [hA.2.2 a2 c2 m2 hkey, if_neg]
      · ring
      · rintro ⟨k1, k2, k3⟩
        exact hkey ⟨k3, k1, k2⟩

/-- `update_balances` consumes its list one event at a time. -/
theorem update_balances_cons (e : Event) (rest : List Event) (t : List Balance) :
    update_balances (e :: rest) t =
      (update_balances [e] t).bind (fun t1 => update_balances rest t1) := by
  show (if is_balance_transfer e then _ else _) = Option.bind (if is_balance_transfer e then _ else _) _
  by_cases hbt : is_balance_transfer e
  · rw [if_pos hbt, if_pos hbt]
    cases parse_transfer_event e with
    | none => rfl
    | some triple =>
      rcases triple with ⟨so, ro, amt⟩
      rfl
  · rw [if_neg hbt, if_neg hbt]
    rfl

/-- A non-TRANSFER event contributes nothing to any balance key. -/
theorem event_contribution_non_transfer (a : String) (c : Int) (m : String) (e : Event)
    (hbt : ¬ is_balance_transfer e = true) :
    event_contribution a c m e = 0 := by
  unfold event_contribution
  rw [if_neg (fun hcon => hbt hcon.1), if_neg (fun hcon => hbt hcon.1)]
  ring

/-- The update of one TRANSFER event, as `update_balances` performs it on a
singleton list: well-formedness is preserved and every nonempty account's
stored amount moves by exactly the event's contribution to its key. -/
theorem update_balances_single_spec (c : Int) (e : Event) (t : List Balance)
    (hwf : balances_wf c t) (hec : e.chain_id = c) (hbt : is_balance_transfer e = true)
    (hq : e.qual_name = e.module ++ ".TRANSFER")
    (hps : (parse_transfer_event e).isSome = true) :
    ∃ t2, update_balances [e] t = some t2 ∧ balances_wf c t2 ∧
      ∀ a2 c2 m2, ¬ a2 = "" →
        balance_amount_at t2 a2 c2 m2 =
          balance_amount_at t a2 c2 m2 + event_contribution a2 c2 m2 e := by
  cases hp : parse_transfer_event e with
  | none =>
    rw [hp] at hps
    exact Bool.noConfusion hps
  | some triple =>
    rcases triple with ⟨so, ro, amt⟩
    obtain ⟨sender, receiver, h0, h1, h2, hs, hr⟩ := parse_transfer_event_inv e so ro amt hp
    have hamt : transfer_amount_of e = amt := by
      unfold transfer_amount_of
      rw [h2]
      rfl
    rw [hs, hr] at hp
    have hstep : update_balances [e] t = some
        (match (if receiver = "" then none else some receiver) with
         | some r => update_account_balance r c e.qual_name e.module e.height amt
             (match (if sender = "" then none else some sender) with
              | some s => update_account_balance s c e.qual_name e.module e.height
                  (amt * (-1)) t
              | none => t)
         | none =>
             (match (if sender = "" then none else some sender) with
              | some s => update_account_balance s c e.qual_name e.module e.height
                  (amt * (-1)) t
              | none => t)) := by
      show (if is_balance_transfer e then _ else _) = _
      rw [if_pos hbt]
      simp only [hp, hec]
      rfl
    rw [hstep]
    have hS := update_branch_spec c t hwf sender (amt * (-1)) e.module e.qual_name hq e.height
    have hR := update_branch_spec c _ hS.1 receiver amt e.module e.qual_name hq e.height
    refine ⟨_, rfl, hR.1, ?_⟩
    intro a2 c2 m2 ha2
    rw [hR.2 a2 c2 m2 ha2, hS.2 a2 c2 m2 ha2]
    have hout : (if c2 = c ∧ m2 = e.module ∧ a2 = sender then amt * (-1) else 0) =
        0 - (if is_balance_transfer e = true ∧ e.chain_id = c2 ∧ e.module = m2 ∧
          (e.params.index 0).as_str = some a2 then transfer_amount_of e else 0) := by
      by_cases hcond : c2 = c ∧ m2 = e.module ∧ a2 = sender
      · rw [if_pos hcond, if_pos ⟨hbt, hec.trans hcond.1.symm, hcond.2.1.symm, by
          rw [h0, hcond.2.2]⟩, hamt]
        ring
      · rw [if_neg hcond, if_neg]
        · ring
        · rintro ⟨_, hb2, hb3, hb4⟩
          apply hcond
          refine ⟨hb2.symm.trans hec, hb3.symm, ?_⟩
          have h5 := h0.symm.trans hb4
          exact (Option.some.inj h5).symm
    have hin : (if c2 = c ∧ m2 = e.module ∧ a2 = receiver then amt else 0) =
        (if is_balance_transfer e = true ∧ e.chain_id = c2 ∧ e.module = m2 ∧
          (e.params.index 1).as_str = some a2 then transfer_amount_of e else 0) := by
      by_cases hcond : c2 = c ∧ m2 = e.module ∧ a2 = receiver
      · rw [if_pos hcond, if_pos ⟨hbt, hec.trans hcond.1.symm, hcond.2.1.symm, by
          rw [h1, hcond.2.2]⟩, hamt]
      · rw [if_neg hcond, if_neg]
        rintro ⟨_, hb2, hb3, hb4⟩
        apply hcond
        refine ⟨hb2.symm.trans hec, hb3.symm, ?_⟩
        have h5 := h1.symm.trans hb4
        exact (Option.some.inj h5).symm
    rw [hout, hin]
    unfold event_contribution
    ring

/-- The fold of `update_balances` over a batch: under the replay invariants it
never fails, keeps the table well-formed, and moves every nonempty account's
amount by the summed contributions of the batch, in any key. -/
theorem update_balances_spec (c : Int) :
    ∀ (evs : List Event) (t : List Balance), balances_wf c t →
    (∀ e ∈ evs, e.chain_id = c) →
    (∀ e ∈ evs, is_balance_transfer e = true → (parse_transfer_event e).isSome = true) →
    (∀ e ∈ evs, is_balance_transfer e = true → e.qual_name = e.module ++ ".TRANSFER") →
    ∃ t2, update_balances evs t = some t2 ∧ balances_wf c t2 ∧
      ∀ a2 c2 m2, ¬ a2 = "" →
        balance_amount_at t2 a2 c2 m2 = balance_amount_at t a2 c2 m2 +
          ((evs.map (event_contribution a2 c2 m2)).sum) := by
  intro evs
  induction evs with
  | nil =>
    intro t hwf _ _ _
    refine ⟨t, rfl, hwf, ?_⟩
    intro a2 c2 m2 _
    simp
  | cons e rest ih =>
    intro t hwf hchain hparse hqual
    by_cases hbt : is_balance_transfer e = true
    · obtain ⟨t1, ht1, hwf1, hamt1⟩ := update_balances_single_spec c e t hwf
        (hchain e (List.mem_cons_self e rest)) hbt
        (hqual e (List.mem_cons_self e rest) hbt)
        (hparse e (List.mem_cons_self e rest) hbt)
      obtain ⟨t2, ht2, hwf2, hamt2⟩ := ih t1 hwf1
        (fun x hx => hchain x (List.mem_cons_of_mem e hx))
        (fun x hx => hparse x (List.mem_cons_of_mem e hx))
        (fun x hx => hqual x (List.mem_cons_of_mem e hx))
      refine ⟨t2, ?_, hwf2, ?_⟩
      · rw [update_balances_cons, ht1, Option.some_bind, ht2]
      · intro a2 c2 m2 ha2
        rw [hamt2 a2 c2 m2 ha2, hamt1 a2 c2 m2 ha2, List.map_cons, List.sum_cons]
        ring
    · obtain ⟨t2, ht2, hwf2, hamt2⟩ := ih t hwf
        (fun x hx => hchain x (List.mem_cons_of_mem e hx))
        (fun x hx => hparse x (List.mem_cons_of_mem e hx))
        (fun x hx => hqual x (List.mem_cons_of_mem e hx))
      refine ⟨t2, ?_, hwf2, ?_⟩
      · show (if is_balance_transfer e then _ else update_balances rest t) = some t2
        rw [if_neg (fun hcon => hbt hcon)]
        exact ht2
      · intro a2 c2 m2 ha2
        rw [hamt2 a2 c2 m2 ha2, List.map_cons, List.sum_cons,
          event_contribution_non_transfer a2 c2 m2 e hbt]
        ring
/-- The batch loop of `calculate_balances`: replaying from `min_height` adds,
at every nonempty account key, exactly the summed contributions of the chain's
events at heights `≥ min_height`. -/
theorem calculate_balances_loop_spec (events : List Event) (c bs : Int) (hbs : 0 < bs)
    (maxH : Int)
    (hmaxH : ∀ e ∈ events, e.chain_id = c → e.height ≤ maxH)
    (hparse : ∀ e ∈ events, is_balance_transfer e = true →
      (parse_transfer_event e).isSome = true)
    (hqual : ∀ e ∈ events, is_balance_transfer e = true →
      e.qual_name = e.module ++ ".TRANSFER") :
    ∀ (n : Nat) (minH : Int), (maxH + 1 - minH).toNat ≤ n →
    ∀ t, balances_wf c t →
    ∃ t2, calculate_balances_loop events c bs hbs maxH t minH = some t2 ∧
      balances_wf c t2 ∧
      ∀ a2 c2 m2, ¬ a2 = "" →
        balance_amount_at t2 a2 c2 m2 = balance_amount_at t a2 c2 m2 +
          ((events.filter (fun e => decide (e.chain_id = c) && decide (minH ≤ e.height))).map
            (event_contribution a2 c2 m2)).sum := by
  intro n
  induction n with
  | zero =>
    intro minH hn t hwf
    have hgt : minH > maxH := by omega
    refine ⟨t, ?_, hwf, ?_⟩
    · unfold calculate_balances_loop
      rw [dif_pos hgt]
    · intro a2 c2 m2 _
      have hfe : events.filter
          (fun e => decide (e.chain_id = c) && decide (minH ≤ e.height)) = [] := by
        rw [List.filter_eq_nil_iff]
        intro e he
        simp only [Bool.and_eq_true, decide_eq_true_eq, not_and]
        intro hc hh
        have := hmaxH e he hc
        omega
      rw [hfe]
      simp
  | succ n ih =>
    intro minH hn t hwf
    by_cases hgt : minH > maxH
    · refine ⟨t, ?_, hwf, ?_⟩
      · unfold calculate_balances_loop
        rw [dif_pos hgt]
      · intro a2 c2 m2 _
        have hfe : events.filter
            (fun e => decide (e.chain_id = c) && decide (minH ≤ e.height)) = [] := by
          rw [List.filter_eq_nil_iff]
          intro e he
          simp only [Bool.and_eq_true, decide_eq_true_eq, not_and]
          intro hc hh
          have := hmaxH e he hc
          omega
        rw [hfe]
        simp
    · cases hB : events_find_by_range events minH (minH + bs) c with
      | nil =>
        have hloop : calculate_balances_loop events c bs hbs maxH t minH =
            calculate_balances_loop events c bs hbs maxH t (minH + bs) := by
          conv_lhs => unfold calculate_balances_loop
          rw [dif_neg hgt]
          simp only [hB, List.isEmpty_nil, if_true]
        obtain ⟨t2, ht2, hwf2, hamt2⟩ := ih (minH + bs) (by omega) t hwf
        refine ⟨t2, hloop.trans ht2, hwf2, ?_⟩
        intro a2 c2 m2 ha2
        rw [hamt2 a2 c2 m2 ha2]
        have hfeq : events.filter
            (fun e => decide (e.chain_id = c) && decide ((minH + bs) ≤ e.height)) =
            events.filter
            (fun e => decide (e.chain_id = c) && decide (minH ≤ e.height)) := by
          apply List.filter_congr
          intro e he
          have hnone := events_find_by_range_eq_nil events minH (minH + bs) c hB e he
          by_cases hc : e.chain_id = c
          · have h3 := hnone hc
            by_cases hh : minH ≤ e.height
            · have h5 : ¬ e.height ≤ minH + bs := fun hle => h3 ⟨hh, hle⟩
              have h4 : minH + bs ≤ e.height := by omega
              simp [hc, hh, h4]
            · have h5 : ¬ (minH + bs ≤ e.height) := by omega
              simp [hh, h5]
          · simp [hc]
        rw [hfeq]
      | cons b rest =>
        obtain ⟨t1, ht1, hwf1, hamt1⟩ := update_balances_spec c
          (events_find_by_range events minH (minH + bs) c) t hwf
          (fun x hx => ((mem_events_find_by_range events minH (minH + bs) c x).mp hx).2.1)
          (fun x hx => hparse x ((mem_events_find_by_range events minH (minH + bs) c x).mp hx).1)
          (fun x hx => hqual x ((mem_events_find_by_range events minH (minH + bs) c x).mp hx).1)
        have hloop : calculate_balances_loop events c bs hbs maxH t minH =
            calculate_balances_loop events c bs hbs maxH t1 (minH + bs + 1) := by
          conv_lhs => unfold calculate_balances_loop
          rw [dif_neg hgt]
          rw [hB] at ht1
          simp only [hB, List.isEmpty_cons, Bool.false_eq_true, if_false, ht1]
        obtain ⟨t2, ht2, hwf2, hamt2⟩ := ih (minH + bs + 1) (by omega) t1 hwf1
        refine ⟨t2, hloop.trans ht2, hwf2, ?_⟩
        intro a2 c2 m2 ha2
        rw [hamt2 a2 c2 m2 ha2, hamt1 a2 c2 m2 ha2]
        have hperm : ((events_find_by_range events minH (minH + bs) c).map
            (event_contribution a2 c2 m2)).sum =
            ((events.filter (fun e => decide (e.chain_id = c) && decide (minH ≤ e.height) &&
              decide (e.height ≤ minH + bs))).map (event_contribution a2 c2 m2)).sum := by
          unfold events_find_by_range
          exact List.Perm.sum_eq (List.Perm.map _ (List.perm_insertionSort _ _))
        have hsplit : ((events.filter
            (fun e => decide (e.chain_id = c) && decide (minH ≤ e.height))).map
              (event_contribution a2 c2 m2)).sum =
            ((events.filter (fun e => decide (e.chain_id = c) && decide (minH ≤ e.height) &&
              decide (e.height ≤ minH + bs))).map (event_contribution a2 c2 m2)).sum +
            ((events.filter (fun e => decide (e.chain_id = c) && decide (minH ≤ e.height) &&
              !(decide (e.height ≤ minH + bs)))).map (event_contribution a2 c2 m2)).sum :=
          sum_map_filter_split events _ _ _
        have htop : events.filter
            (fun e => decide (e.chain_id = c) && decide (minH ≤ e.height) &&
              !(decide (e.height ≤ minH + bs))) =
            events.filter
            (fun e => decide (e.chain_id = c) && decide (minH + bs + 1 ≤ e.height)) := by
          apply List.filter_congr
          intro e he
          by_cases hc : e.chain_id = c
          · by_cases hh : e.height ≤ minH + bs
            · have h5 : ¬ (minH + bs + 1 ≤ e.height) := by omega
              simp [hc, hh, h5]
            · have h5 : minH + bs + 1 ≤ e.height := by omega
              have h6 : minH ≤ e.height := by omega
              simp [hc, hh, h5, h6]
          · simp [hc]
        rw [hperm, ← htop, hsplit]
        ring
/-- In a well-formed table the key lookup of a row's own key finds that row,
so the stored amount at the key is the row's amount. -/
theorem balance_amount_at_mem (c : Int) :
    ∀ (t : List Balance), balances_wf c t → ∀ b ∈ t,
      balance_amount_at t b.account b.chain_id b.module = b.amount := by
  intro t
  induction t with
  | nil =>
    intro _ b hb
    exact absurd hb (List.not_mem_nil b)
  | cons x rest ih =>
    intro hwf b hb
    rcases List.mem_cons.mp hb with rfl | hbrest
    · unfold balance_amount_at balances_find_by_account_chain_and_module
      rw [List.find?_cons_of_pos _ (by simp)]
    · have hxb := (List.pairwise_cons.mp hwf.2).1 b hbrest
      have hwfr : balances_wf c rest :=
        ⟨fun y hy => hwf.1 y (List.mem_cons_of_mem x hy), (List.pairwise_cons.mp hwf.2).2⟩
      unfold balance_amount_at balances_find_by_account_chain_and_module
      rw [List.find?_cons_of_neg]
      · exact ih hwfr b hbrest
      · simp only [Bool.and_eq_true, decide_eq_true_eq, not_and]
        intro h1 h2
        exact absurd ⟨h1.1, h1.2, h2⟩ hxb

/-- C2. Balance fold law: after `calculate_balances` replays a chain's full
event stream from height 0 (heights nonnegative, TRANSFER events parseable
with the module's TRANSFER qualified name) starting from an empty balances
table, the replay succeeds and every balance row stores exactly the sum of
the amounts of the TRANSFER events of its chain and module that name its
account as receiver (`params[1]`), minus the sum for those that name it as
sender (`params[0]`). -/
theorem c2_balance_fold (events : List Event) (chain_id batch_size : Int)
    (hbs : 0 < batch_size)
    (hpos : ∀ e ∈ events, e.chain_id = chain_id → 0 ≤ e.height)
    (hparse : ∀ e ∈ events, is_balance_transfer e = true →
      (parse_transfer_event e).isSome = true)
    (hqual : ∀ e ∈ events, is_balance_transfer e = true →
      e.qual_name = e.module ++ ".TRANSFER") :
    ∃ t2, calculate_balances chain_id batch_size hbs none events [] = some t2 ∧
      ∀ b ∈ t2, b.amount =
        ((events.filter (fun e => is_balance_transfer e &&
          decide (e.chain_id = b.chain_id) && decide (e.module = b.module) &&
          decide ((e.params.index 1).as_str = some b.account))).map transfer_amount_of).sum -
        ((events.filter (fun e => is_balance_transfer e &&
          decide (e.chain_id = b.chain_id) && decide (e.module = b.module) &&
          decide ((e.params.index 0).as_str = some b.account))).map transfer_amount_of).sum := by
  have hwf0 : balances_wf chain_id [] :=
    ⟨fun b hb => absurd hb (List.not_mem_nil b), List.Pairwise.nil⟩
  have hmaxH : ∀ e ∈ events, e.chain_id = chain_id →
      e.height ≤ events_find_max_height events chain_id :=
    fun e he hc => height_le_events_find_max_height events chain_id e he hc
  obtain ⟨t2, ht2, hwf2, hamt2⟩ := calculate_balances_loop_spec events chain_id batch_size
    hbs (events_find_max_height events chain_id) hmaxH hparse hqual
    ((events_find_max_height events chain_id + 1 - 0).toNat) 0 (le_refl _) [] hwf0
  refine ⟨t2, ht2, ?_⟩
  intro b hb
  obtain ⟨hbne, hbq, hbc⟩ := hwf2.1 b hb
  have hkey := balance_amount_at_mem chain_id t2 hwf2 b hb
  have hamtb := hamt2 b.account b.chain_id b.module hbne
  rw [hkey] at hamtb
  have h00 : balance_amount_at [] b.account b.chain_id b.module = 0 := rfl
  rw [h00, zero_add] at hamtb
  have hf0 : events.filter
      (fun e => decide (e.chain_id = chain_id) && decide ((0:Int) ≤ e.height)) =
      events.filter (fun e => decide (e.chain_id = chain_id)) := by
    apply List.filter_congr
    intro e he
    by_cases hc : e.chain_id = chain_id
    · have := hpos e he hc
      simp [hc, this]
    · simp [hc]
  rw [hf0] at hamtb
  have hext : ((events.filter (fun e => decide (e.chain_id = chain_id))).map
      (event_contribution b.account b.chain_id b.module)).sum =
      (events.map (event_contribution b.account b.chain_id b.module)).sum := by
    rw [sum_filter_map_eq_sum_ite]
    refine congrArg List.sum (List.map_congr_left ?_)
    intro e _
    by_cases hc : e.chain_id = chain_id
    · simp [hc]
    · rw [if_neg (by simp [hc])]
      unfold event_contribution
      rw [if_neg (fun hcon => hc (hcon.2.1.trans hbc)),
        if_neg (fun hcon => hc (hcon.2.1.trans hbc))]
      norm_num
  rw [hext] at hamtb
  rw [show events.map (event_contribution b.account b.chain_id b.module) =
      events.map (fun e =>
        (if is_balance_transfer e = true ∧ e.chain_id = b.chain_id ∧ e.module = b.module ∧
          (e.params.index 1).as_str = some b.account then transfer_amount_of e else 0) -
        (if is_balance_transfer e = true ∧ e.chain_id = b.chain_id ∧ e.module = b.module ∧
          (e.params.index 0).as_str = some b.account then transfer_amount_of e else 0))
      from rfl, sum_map_sub] at hamtb
  rw [hamtb, sum_filter_map_eq_sum_ite, sum_filter_map_eq_sum_ite]
  have hite : ∀ (k : Nat) (e : Event),
      (if (is_balance_transfer e && decide (e.chain_id = b.chain_id) &&
        decide (e.module = b.module) &&
        decide ((e.params.index k).as_str = some b.account)) = true
        then transfer_amount_of e else 0) =
      (if is_balance_transfer e = true ∧ e.chain_id = b.chain_id ∧ e.module = b.module ∧
        (e.params.index k).as_str = some b.account then transfer_amount_of e else 0) := by
    intro k e
    by_cases hcond : is_balance_transfer e = true ∧ e.chain_id = b.chain_id ∧
        e.module = b.module ∧ (e.params.index k).as_str = some b.account
    · rw [if_pos hcond, if_pos (by
        simp only [Bool.and_eq_true, decide_eq_true_eq]
        exact ⟨⟨⟨hcond.1, hcond.2.1⟩, hcond.2.2.1⟩, hcond.2.2.2⟩)]
    · rw [if_neg (fun hb2 => hcond (by
        simp only [Bool.and_eq_true, decide_eq_true_eq] at hb2
        exact ⟨hb2.1.1.1, hb2.1.1.2, hb2.1.2, hb2.2⟩)), if_neg hcond]
  congr 1
  · exact congrArg List.sum (List.map_congr_left (fun e _ => (hite 1 e).symm))
  · exact congrArg List.sum (List.map_congr_left (fun e _ => (hite 0 e).symm))

/-- C2 witness: the fold law instantiated on the repository's own
balance-derivation scenario (chain 0, batch size 100). -/
theorem c2_witness :
    ∃ t2, calculate_balances 0 100 (by norm_num) none balanceScenarioEvents [] = some t2 ∧
      ∀ b ∈ t2, b.amount =
        ((balanceScenarioEvents.filter (fun e => is_balance_transfer e &&
          decide (e.chain_id = b.chain_id) && decide (e.module = b.module) &&
          decide ((e.params.index 1).as_str = some b.account))).map transfer_amount_of).sum -
        ((balanceScenarioEvents.filter (fun e => is_balance_transfer e &&
          decide (e.chain_id = b.chain_id) && decide (e.module = b.module) &&
          decide ((e.params.index 0).as_str = some b.account))).map transfer_amount_of).sum :=
  c2_balance_fold balanceScenarioEvents 0 100 (by norm_num)
    (by with_unfolding_all decide) (by with_unfolding_all decide)
    (by with_unfolding_all decide)
end Bento
